import Mathlib

/-!
Verification of the identifier-reconciliation and model-family-inference
engine of `scripts/merge_benchmarks.py`.

Modelling conventions (shallow embedding):
* Python strings are `List Char` (`Str`).  `str.lower()` is the ASCII case
  mapping, matching the identifiers the script handles.
* Python dicts are association lists iterated in insertion order;
  assignment to an existing key updates the value in place, assignment to
  a fresh key appends (CPython dict semantics).
* Python floats are `ℚ`; the version numbers and scores the script
  manipulates are short decimal literals, on which float and exact
  rational comparison agree.
* The fixed regular expressions of the script are translated pattern by
  pattern into executable matchers implementing Python `re` semantics
  (leftmost start position, greedy with backtracking) for those patterns.
-/

namespace MergeBench

/-- Python strings, modelled as lists of characters. -/
abbrev Str : Type := List Char

/-- Lean string literal to `Str`. -/
def str (s : String) : Str := s.toList

/-- ASCII lower-casing of one character, as Python `str.lower()` acts on
the ASCII identifiers handled by the script. -/
def lowc (c : Char) : Char :=
  if 65 ≤ c.toNat ∧ c.toNat ≤ 90 then Char.ofNat (c.toNat + 32) else c

/-- Python `str.lower()`. -/
def lowerS (s : Str) : Str := s.map lowc

/-- Python `str.split(sep)` for a one-character separator:
`"".split("-") = [""]`, `"a--b".split("-") = ["a", "", "b"]`. -/
def splitOnC (c : Char) : Str → List Str
  | [] => [[]]
  | x :: t =>
    if x = c then [] :: splitOnC c t
    else
      match splitOnC c t with
      | [] => [[x]]
      | h :: r => (x :: h) :: r

/-- Python `sep.join(parts)` for a one-character separator. -/
def joinC (c : Char) : List Str → Str
  | [] => []
  | [p] => p
  | p :: ps => p ++ c :: joinC c ps

/-- `normalize_model_id` (merge_benchmarks.py, lines 171-178): lower-case,
split on `-`, drop the components that are exactly 8 characters long and
all digits (date stamps such as `20241022`), rejoin with `-`. -/
def normalize_model_id (model_id : Str) : Str :=
  joinC '-' ((splitOnC '-' (lowerS model_id)).filter
    (fun p => !(p.length == 8 && p.all Char.isDigit)))

/-- Maximal digit prefix of a string and the remainder (the step a greedy
`\d+` or `\d*` takes). -/
def digitRun : Str → Str × Str
  | [] => ([], [])
  | c :: t =>
    if c.isDigit then
      let p := digitRun t
      (c :: p.1, p.2)
    else ([], c :: t)

/-- Whole-string membership in the language of `\d+\.?\d*` (used when the
number pattern must run to the end of the string). -/
def numFull (s : Str) : Bool :=
  match digitRun s with
  | ([], _) => false
  | (_ :: _, r) =>
    match r with
    | [] => true
    | '.' :: r2 => (digitRun r2).2.isEmpty
    | _ => false

/-- Match `(\d+\.?\d*)-` at the start of `s`, returning the group of the
greedy match: backtracking inside a digit run cannot expose the required
`-`, so only digit-run boundaries are candidates. -/
def matchNumDash (s : Str) : Option Str :=
  match digitRun s with
  | ([], _) => none
  | (d, r) =>
    if r.head? = some '-' then some d
    else
      match r with
      | '.' :: r2 =>
        let p := digitRun r2
        if p.2.head? = some '-' then some (d ++ '.' :: p.1) else none
      | _ => none

/-- `re.search(r"-(\d+\.?\d*)-", s)`: captured group of the leftmost match
(pattern (a) of `extract_version`, e.g. `claude-3.5-sonnet`). -/
def searchA : Str → Option Str
  | [] => none
  | c :: t =>
    if c = '-' then
      match matchNumDash t with
      | some g => some g
      | none => searchA t
    else searchA t

/-- `re.search(r"-(\d+\.?\d*)$", s)`: captured group of the leftmost match
(pattern (b), e.g. `gemini-2.5-pro` matched at the final dash). -/
def searchB : Str → Option Str
  | [] => none
  | c :: t =>
    if c = '-' then
      if numFull t then some t else searchB t
    else searchB t

/-- `re.search(r"(\d+\.?\d*)$", s)`: captured group of the leftmost match,
the earliest position whose whole suffix is in the number language
(pattern (c), e.g. `claude-sonnet-4.5`). -/
def searchC : Str → Option Str
  | [] => none
  | c :: t => if numFull (c :: t) then some (c :: t) else searchC t

/-- Maximal `[a-z]` prefix of a string and the remainder. -/
def azRun : Str → Str × Str
  | [] => ([], [])
  | c :: t =>
    if 97 ≤ c.toNat ∧ c.toNat ≤ 122 then
      let p := azRun t
      (c :: p.1, p.2)
    else ([], c :: t)

/-- Match `[a-z]+-(\d+\.?\d*)` at the start of `s`, returning the greedy
group (backtracking inside the letter run cannot expose the `-`). -/
def matchAzNum (s : Str) : Option Str :=
  match azRun s with
  | ([], _) => none
  | (_ :: _, r) =>
    match r with
    | '-' :: r2 =>
      match digitRun r2 with
      | ([], _) => none
      | (d, r3) =>
        match r3 with
        | '.' :: r4 => some (d ++ '.' :: (digitRun r4).1)
        | _ => some d
    | _ => none

/-- `re.search(r"/[a-z]+-(\d+\.?\d*)", s)`: captured group of the leftmost
match (pattern (d), e.g. `gpt-4.1` after a provider segment). -/
def searchD : Str → Option Str
  | [] => none
  | c :: t =>
    if c = '/' then
      match matchAzNum t with
      | some g => some g
      | none => searchD t
    else searchD t

/-- Decimal digits to a natural number. -/
def natOfDigits (s : Str) : Nat :=
  s.foldl (fun a c => 10 * a + (c.toNat - 48)) 0

/-- Python `float()` on a matched group of shape `\d+\.?\d*`, read exactly
as a rational (the groups the regexes capture always parse, so the
`ValueError` branch of the source is dead; float and exact comparison
agree on these short decimals). -/
def qOfGroup (g : Str) : ℚ :=
  match splitOnC '.' g with
  | [i] => mkRat (natOfDigits i) 1
  | [i, f] => mkRat (natOfDigits i * 10 ^ f.length + natOfDigits f) (10 ^ f.length)
  | _ => 0

/-- `extract_version` (merge_benchmarks.py, lines 181-204): the four version
patterns tried in order, first success returning its numeric value paired
with the original identifier; fallback `(0.0, id)`. -/
def extract_version (model_id : Str) : ℚ × Str :=
  match searchA model_id with
  | some g => (qOfGroup g, model_id)
  | none =>
    match searchB model_id with
    | some g => (qOfGroup g, model_id)
    | none =>
      match searchC model_id with
      | some g => (qOfGroup g, model_id)
      | none =>
        match searchD model_id with
        | some g => (qOfGroup g, model_id)
        | none => (0, model_id)


/-- First-match lookup in an association list, Python `d[k]` / `k in d`
(keys built by `alSet` are unique, so first match is the match). -/
def alGet {V : Type} : List (Str × V) → Str → Option V
  | [], _ => none
  | (k2, v) :: t, k => if k2 = k then some v else alGet t k

/-- Python dict assignment `d[k] = v`: update in place when the key
exists, append when it is fresh (CPython preserves insertion order). -/
def alSet {V : Type} : List (Str × V) → Str → V → List (Str × V)
  | [], k, v => [(k, v)]
  | (k2, v2) :: t, k, v =>
    if k2 = k then (k, v) :: t else (k2, v2) :: alSet t k v

/-- `defaultdict` access-and-mutate: `d[k]` defaulting to `dflt`, then the
mutation `f` applied to it. -/
def alUpd {V : Type} (m : List (Str × V)) (k : Str) (dflt : V) (f : V → V) :
    List (Str × V) :=
  alSet m k (f ((alGet m k).getD dflt))

/-- The fields of an OpenRouter catalog entry that the engine reads. -/
structure CatalogModel where
  id : Str
  name : Str
  context_length : Option Int
deriving DecidableEq

/-- Is `lit` a leading segment of `s`? -/
def hasLead : Str → Str → Bool
  | [], _ => true
  | _ :: _, [] => false
  | a :: p, c :: s => a == c && hasLead p s

/-- Drop a leading literal, when present. -/
def dropLead : Str → Str → Option Str
  | [], s => some s
  | _ :: _, [] => none
  | a :: p, c :: s => if a = c then dropLead p s else none

/-- Python `needle in hay` on strings. -/
def subIn (needle : Str) : Str → Bool
  | [] => hasLead needle []
  | c :: t => hasLead needle (c :: t) || subIn needle t

/-- Python `s.split("/")[-1]`. -/
def lastSeg (s : Str) : Str := (splitOnC '/' s).getLastD []

/-- Python `"/" in s`. -/
def hasSlash (s : Str) : Bool := s.contains '/'

/-- All rests reachable by consuming a prefix in the language of
`\d+\.?\d*` (every backtracking stop of the greedy match: inside the
digit run, at its boundary, and after the optional dot part). -/
def numRests (s : Str) : List Str :=
  match digitRun s with
  | ([], _) => []
  | (d, r) =>
    (d.tails.drop 1).map (· ++ r) ++
      (match r with
       | '.' :: r2 => ((digitRun r2).1.tails).map (· ++ (digitRun r2).2)
       | _ => [])

/-- Regex combinator: `(\d+\.?\d*)` then a continuation. -/
def numThen (k : Str → Bool) (s : Str) : Bool := (numRests s).any k

/-- Regex combinator: a literal then a continuation. -/
def litP (l : String) (k : Str → Bool) (s : Str) : Bool :=
  match dropLead (str l) s with
  | some r => k r
  | none => false

/-- Regex `$`: the rest must be empty. -/
def patEnd (s : Str) : Bool := s.isEmpty

/-- Unanchored pattern end: any rest is accepted. -/
def patAny (_ : Str) : Bool := true

/-- `MODEL_FAMILY_PATTERNS` (merge_benchmarks.py, lines 69-113): the 30
`(regex, family_name, tier)` rules, each regex translated into a matcher
with Python `re.match` semantics (anchored at the start). -/
def MODEL_FAMILY_PATTERNS : List ((Str → Bool) × Str × Str) :=
  [(litP "anthropic/claude-opus-" (numThen patEnd), str "claude-opus", str "flagship"),
   (litP "anthropic/claude-" (numThen (litP "-opus" patEnd)), str "claude-opus", str "flagship"),
   (litP "anthropic/claude-sonnet-" (numThen patEnd), str "claude-sonnet", str "mid"),
   (litP "anthropic/claude-" (numThen (litP "-sonnet" patEnd)), str "claude-sonnet", str "mid"),
   (litP "anthropic/claude-haiku-" (numThen patEnd), str "claude-haiku", str "fast"),
   (litP "anthropic/claude-" (numThen (litP "-haiku" patEnd)), str "claude-haiku", str "fast"),
   (litP "openai/gpt-4.1" patEnd, str "gpt-4", str "mid"),
   (litP "openai/gpt-4o" patEnd, str "gpt-4", str "mid"),
   (litP "openai/gpt-4-turbo" patAny, str "gpt-4", str "mid"),
   (litP "openai/gpt-4.1-mini" patEnd, str "gpt-4-mini", str "fast"),
   (litP "openai/gpt-4o-mini" patEnd, str "gpt-4-mini", str "fast"),
   (litP "openai/o1" patEnd, str "o1", str "flagship"),
   (litP "openai/o1-preview" patAny, str "o1", str "flagship"),
   (litP "openai/o1-mini" patAny, str "o1-mini", str "mid"),
   (litP "openai/o3-mini" patAny, str "o3-mini", str "mid"),
   (litP "google/gemini-" (numThen (litP "-pro" patAny)), str "gemini-pro", str "mid"),
   (litP "google/gemini-pro" patAny, str "gemini-pro", str "mid"),
   (litP "google/gemini-" (numThen (litP "-flash" (fun r => !hasLead (str "-lite") r))), str "gemini-flash", str "fast"),
   (litP "google/gemini-flash" patAny, str "gemini-flash", str "fast"),
   (litP "deepseek/deepseek-chat" patAny, str "deepseek-chat", str "mid"),
   (litP "deepseek/deepseek-coder" patAny, str "deepseek-coder", str "mid"),
   (litP "deepseek/deepseek-r1" patEnd, str "deepseek-r1", str "flagship"),
   (litP "mistralai/mistral-large" patAny, str "mistral-large", str "mid"),
   (litP "mistralai/mistral-medium" patAny, str "mistral-medium", str "mid"),
   (litP "mistralai/mistral-small" patAny, str "mistral-small", str "fast"),
   (litP "meta-llama/llama-3.3-70b" patAny, str "llama-3-70b", str "mid"),
   (litP "meta-llama/llama-3.2-90b" patAny, str "llama-3-90b", str "mid"),
   (litP "meta-llama/llama-3.1-405b" patAny, str "llama-3-405b", str "flagship"),
   (litP "qwen/qwen-2.5-72b" patAny, str "qwen-72b", str "mid"),
   (litP "qwen/qwq-32b" patAny, str "qwq", str "mid")]

/-- The first rule of a rule list whose pattern matches the identifier,
with its family name and tier (the `for ... break` of lines 226-231). -/
def firstRule : List ((Str → Bool) × Str × Str) → Str → Option (Str × Str)
  | [], _ => none
  | (p, fam, tier) :: rest, mid =>
    if p mid then some (fam, tier) else firstRule rest mid

/-- A family entry of the result of `infer_model_families`. -/
structure FamilyInfo where
  latest : Str
  members : List Str
  tier : Str
deriving DecidableEq

/-- The comparison `sorted(members, key=lambda x: x[1], reverse=True)`
sorts by: `a` before `b` when `b`'s key does not exceed `a`'s.  Python's
sort is stable, hence insertion sort with this relation models it. -/
def verLe (a b : Str × ℚ) : Prop := b.2 ≤ a.2

instance : DecidableRel verLe := fun a b => inferInstanceAs (Decidable (b.2 ≤ a.2))

instance : IsTotal (Str × ℚ) verLe := ⟨fun a b => le_total b.2 a.2⟩

instance : IsTrans (Str × ℚ) verLe := ⟨fun _ _ _ hab hbc => le_trans hbc hab⟩

/-- One step of the model loop of `infer_model_families` (lines 223-231):
the first matching rule appends `(model_id, version)` to its family and
records the tier; a model matching no rule changes nothing. -/
def famStep (st : List (Str × List (Str × ℚ)) × List (Str × Str))
    (model : CatalogModel) :
    List (Str × List (Str × ℚ)) × List (Str × Str) :=
  match firstRule MODEL_FAMILY_PATTERNS model.id with
  | some (family_name, tier) =>
    (alUpd st.1 family_name []
        (fun l => l ++ [(model.id, (extract_version model.id).1)]),
     alSet st.2 family_name tier)
  | none => st

/-- The `families` defaultdict after the model loop. -/
def famGroups (models : List CatalogModel) : List (Str × List (Str × ℚ)) :=
  (models.foldl famStep ([], [])).1

/-- The `family_tiers` dict after the model loop. -/
def famTiers (models : List CatalogModel) : List (Str × Str) :=
  (models.foldl famStep ([], [])).2

/-- The family record built from one family's member list (lines 233-245):
stable descending sort by version, first element becomes `latest`; an
empty member list yields no record. -/
def mkInfo (tiers : List (Str × Str)) (f : Str) (l : List (Str × ℚ)) :
    Option (Str × FamilyInfo) :=
  match List.insertionSort verLe l with
  | [] => none
  | m :: ms =>
    some (f, { latest := m.1, members := (m :: ms).map Prod.fst,
               tier := (alGet tiers f).getD (str "mid") })

/-- `infer_model_families` (merge_benchmarks.py, lines 207-247). -/
def infer_model_families (models : List CatalogModel) :
    List (Str × FamilyInfo) :=
  (famGroups models).filterMap (fun e => mkInfo (famTiers models) e.1 e.2)

/-- The `(model_id, version, tier)` assignments the model loop makes to
family `f`, in input order (specification of `famGroups`/`famTiers`). -/
def assignedOf (f : Str) (models : List CatalogModel) :
    List ((Str × ℚ) × Str) :=
  models.filterMap (fun model =>
    match firstRule MODEL_FAMILY_PATTERNS model.id with
    | some (fam, tier) =>
      if fam = f then
        some ((model.id, (extract_version model.id).1), tier)
      else none
    | none => none)

/-- The ids assigned to family `f`, in input order. -/
def assignedIds (f : Str) (models : List CatalogModel) : List Str :=
  (assignedOf f models).map (fun a => a.1.1)

/-- The numeric sort key of an identifier. -/
def verKey (mid : Str) : ℚ := (extract_version mid).1

/-- Rational addition computed on numerator and denominator (the model of
float `+`; kept `mkRat`-based so that concrete runs evaluate, and proved
equal to `+` in `qAdd_eq`). -/
def qAdd (a b : ℚ) : ℚ := mkRat (a.num * b.den + b.num * a.den) (a.den * b.den)

/-- Rational division by a positive count, `mkRat`-based (the model of
float `/` by `len(...)`; proved equal to `/` in `qDivNat_eq`). -/
def qDivNat (a : ℚ) (n : Nat) : ℚ := mkRat a.num (a.den * n)

/-- Python `round(q, 4)`: scale by `10^4`, round half to even, unscale.
Computed on numerators and denominators so that concrete runs evaluate. -/
def pyRound4 (q : ℚ) : ℚ :=
  mkRat
    (let s : ℚ := mkRat (q.num * 10000) q.den
     let f : ℤ := Int.fdiv s.num s.den
     let r2 : ℤ := 2 * (s.num - f * s.den)
     if r2 < (s.den : ℤ) then f
     else if (s.den : ℤ) < r2 then f + 1
     else if f % 2 = 0 then f else f + 1)
    10000

/-- A category's benchmark scores: `{benchmark_id: score}`. -/
abbrev BenchScores : Type := List (Str × ℚ)

/-- A score-index entry: `{category: {benchmark_id: score}}`. -/
abbrev Scores : Type := List (Str × BenchScores)

/-- The score index: `{model_id_or_normalized: {category: {benchmark: score}}}`. -/
abbrev ScoreIndex : Type := List (Str × Scores)

/-- One `{model_id, score}` row of a fetched benchmark
(`model.get("model_id", "")`, `model.get("score")`). -/
structure ScoreRow where
  model_id : Str
  score : Option ℚ
deriving DecidableEq

/-- `benchmarks_data`: per category, per benchmark id, the fetched rows;
`none` stands for a falsy response or one without a `"models"` key
(the `continue` branch of line 260). -/
abbrev BenchData : Type := List (Str × List (Str × Option (List ScoreRow)))

/-- The sequence of dict writes `build_model_score_map` performs (lines
258-273), in execution order: for each row with a nonempty id and a
present score, the raw id, then the normalized id when it differs. -/
def writesOf (benchmarks_data : BenchData) : List (Str × Str × Str × ℚ) :=
  benchmarks_data.flatMap (fun cat =>
    cat.2.flatMap (fun bench =>
      match bench.2 with
      | none => []
      | some rows =>
        rows.flatMap (fun row =>
          match row.score with
          | none => []
          | some sc =>
            if row.model_id = [] then []
            else
              (row.model_id, cat.1, bench.1, sc) ::
                (if normalize_model_id row.model_id ≠ row.model_id then
                  [(normalize_model_id row.model_id, cat.1, bench.1, sc)]
                 else []))))

/-- `model_scores[k][c][b] = s` on the nested defaultdict. -/
def write3 (m : ScoreIndex) (k c b : Str) (s : ℚ) : ScoreIndex :=
  alUpd m k [] (fun cats => alUpd cats c [] (fun benches => alSet benches b s))

/-- `build_model_score_map` (merge_benchmarks.py, lines 250-275). -/
def build_model_score_map (benchmarks_data : BenchData) : ScoreIndex :=
  (writesOf benchmarks_data).foldl
    (fun m w => write3 m w.1 w.2.1 w.2.2.1 w.2.2.2) []

/-- Tier 3 of `match_model` (lines 294-296): scan the index in iteration
order for a substring relation in either direction. -/
def scanFind (mnn : Str) : ScoreIndex → Option Scores
  | [] => none
  | (ze_id, scores) :: rest =>
    if subIn mnn ze_id || subIn ze_id mnn then some scores
    else scanFind mnn rest

/-- `match_model` (merge_benchmarks.py, lines 278-298): exact lookup, then
normalized lookup, then - only for path-style ids - the substring scan. -/
def match_model (openrouter_id : Str) (zeroeval_scores : ScoreIndex) :
    Option Scores :=
  match alGet zeroeval_scores openrouter_id with
  | some v => some v
  | none =>
    match alGet zeroeval_scores (normalize_model_id openrouter_id) with
    | some v => some v
    | none =>
      if hasSlash openrouter_id then
        scanFind (normalize_model_id (lastSeg openrouter_id)) zeroeval_scores
      else none

/-- `calculate_category_averages` (merge_benchmarks.py, lines 301-308):
mean of each nonempty category's scores, rounded to 4 decimals; empty
categories are skipped. -/
def calculate_category_averages (scores : Scores) : List (Str × ℚ) :=
  scores.foldl
    (fun averages e =>
      if e.2.isEmpty then averages
      else
        alSet averages e.1
          (pyRound4 (qDivNat (e.2.foldl (fun a b => qAdd a b.2) 0) e.2.length)))
    []

/-- The alias registrations one family performs, in execution order
(lines 320-352): each non-latest member, its trailing segment when the
member id has a `/`, the family name, then the curated variations. -/
def famRegs (family_name : Str) (info : FamilyInfo) : List (Str × Str) :=
  (info.members.flatMap (fun member =>
    if member ≠ info.latest then
      (member, info.latest) ::
        (if hasSlash member then [(lastSeg member, info.latest)] else [])
    else []))
  ++ [(family_name, info.latest)]
  ++ (if family_name = str "claude-sonnet" then
        [(str "sonnet", info.latest), (str "claude sonnet", info.latest)]
      else if family_name = str "claude-haiku" then
        [(str "haiku", info.latest), (str "claude haiku", info.latest)]
      else if family_name = str "claude-opus" then
        [(str "opus", info.latest), (str "claude opus", info.latest)]
      else if family_name = str "gpt-4" then
        [(str "gpt4", info.latest), (str "gpt-4o", info.latest)]
      else if family_name = str "gpt-4-mini" then
        [(str "gpt4-mini", info.latest), (str "gpt-4o-mini", info.latest)]
      else [])

/-- All alias registrations of a run, families in iteration order. -/
def allRegs (families : List (Str × FamilyInfo)) : List (Str × Str) :=
  families.flatMap (fun e => famRegs e.1 e.2)

/-- `generate_aliases` (merge_benchmarks.py, lines 311-354): the dict
obtained by performing every registration in order. -/
def generate_aliases (families : List (Str × FamilyInfo)) :
    List (Str × Str) :=
  (allRegs families).foldl (fun aliases r => alSet aliases r.1 r.2) []

/-- The value of the last registration of key `k`, if any. -/
def lastVal : List (Str × Str) → Str → Option Str
  | [], _ => none
  | r :: rest, k =>
    match lastVal rest k with
    | some v => some v
    | none => if r.1 = k then some r.2 else none

/-- The tier of the last assignment in a slice of the assignment list. -/
def lastTierOf : List ((Str × ℚ) × Str) → Option Str
  | [] => none
  | a :: rest =>
    match lastTierOf rest with
    | some t => some t
    | none => some a.2

/-- The tier-3 relation of `match_model`: the scanned key contains the
normalized trailing segment of the target, or conversely. -/
def tier3rel (target_id : Str) (key : Str) : Bool :=
  subIn (normalize_model_id (lastSeg target_id)) key
    || subIn key (normalize_model_id (lastSeg target_id))

/-- Triple lookup `m[k][c][b]` in the score index. -/
def idxGet3 (m : ScoreIndex) (k c b : Str) : Option ℚ :=
  (alGet m k).bind (fun cats => (alGet cats c).bind (fun bs => alGet bs b))

/-- One merged output record (`main`, lines 448-456). -/
structure MergedModel where
  id : Str
  name : Str
  context_length : Option Int
  benchmarks : Option Scores
  category_scores : Option (List (Str × ℚ))
deriving DecidableEq

/-- The merge loop of `main` (lines 441-463): every OpenRouter model gets
a merged record; a truthy match fills the benchmark fields (`if scores:`
is false for `None` and for an empty dict alike). -/
def mergeModels (openrouter_models : List CatalogModel)
    (model_scores : ScoreIndex) : List MergedModel :=
  openrouter_models.map (fun model =>
    match match_model model.id model_scores with
    | some scores =>
      if scores.isEmpty then
        { id := model.id, name := model.name,
          context_length := model.context_length,
          benchmarks := none, category_scores := none }
      else
        { id := model.id, name := model.name,
          context_length := model.context_length,
          benchmarks := some scores,
          category_scores := some (calculate_category_averages scores) }
    | none =>
      { id := model.id, name := model.name,
        context_length := model.context_length,
        benchmarks := none, category_scores := none })



/-- Concrete family map used to instantiate the alias theorems. -/
def demoFamilies : List (Str × FamilyInfo) :=
  [(str "claude-sonnet",
    { latest := str "anthropic/claude-sonnet-4.5",
      members := [str "anthropic/claude-sonnet-4.5", str "anthropic/claude-3.5-sonnet"],
      tier := str "mid" }),
   (str "gpt-4",
    { latest := str "openai/gpt-4.1",
      members := [str "openai/gpt-4.1", str "openai/gpt-4o"],
      tier := str "mid" })]

/-- Concrete catalog slice used to instantiate the classifier theorems. -/
def demoModels : List CatalogModel :=
  [{ id := str "anthropic/claude-3.5-sonnet", name := str "Claude 3.5 Sonnet", context_length := some 200000 },
   { id := str "anthropic/claude-sonnet-4.5", name := str "Claude Sonnet 4.5", context_length := some 1000000 },
   { id := str "foo/bar", name := str "Bar", context_length := none }]

/-- Concrete benchmark payload used to instantiate the score-map theorems:
two dated variants of the same model normalize to one shared key. -/
def demoBenchData : BenchData :=
  [(str "code",
    [(str "swe", some [{ model_id := str "claude-3-sonnet-20240229", score := some (mkRat 1 2) },
                       { model_id := str "claude-3-sonnet-20240620", score := some (mkRat 7 10) }]),
     (str "humaneval", none)]),
   (str "math",
    [(str "aime", some [{ model_id := str "claude-3-sonnet-20240620", score := some (mkRat 6 10) },
                        { model_id := str "gpt-4o", score := some (mkRat 8 10) }])])]

/-- Concrete score index used to instantiate the matcher theorems. -/
def demoIndex : ScoreIndex :=
  [(str "anthropic/claude-sonnet-4.5",
    [(str "code", [(str "swe", mkRat 77 100)])]),
   (str "claude-3-sonnet",
    [(str "math", [(str "aime", mkRat 6 10)])])]

theorem charToNat_ofNat_valid (n : Nat) (h : n.isValidChar) :
    (Char.ofNat n).toNat = n := by
  rw [Char.ofNat, dif_pos h]
  simp [Char.ofNatAux, Char.toNat, UInt32.toNat]

theorem char_eq_of_toNat_eq {a b : Char} (h : a.toNat = b.toNat) : a = b :=
  Char.ext (UInt32.toNat.inj h)

theorem lowc_toNat (c : Char) :
    (lowc c).toNat = if 65 ≤ c.toNat ∧ c.toNat ≤ 90 then c.toNat + 32 else c.toNat := by
  rw [lowc]
  by_cases h : 65 ≤ c.toNat ∧ c.toNat ≤ 90
  · rw [if_pos h, if_pos h, charToNat_ofNat_valid]
    left
    have := h.2
    have h32 : c.toNat + 32 < 55296 := by omega
    exact_mod_cast h32
  · rw [if_neg h, if_neg h]

theorem lowc_idem (c : Char) : lowc (lowc c) = lowc c := by
  apply char_eq_of_toNat_eq
  rw [lowc_toNat (lowc c), lowc_toNat c]
  split_ifs <;> omega

theorem lowc_ne_of_lt_65 {c d : Char} (hd : d.toNat < 65) (hne : c ≠ d) : lowc c ≠ d := by
  intro h
  have hEq := lowc_toNat c
  rw [h] at hEq
  by_cases hc : 65 ≤ c.toNat ∧ c.toNat ≤ 90
  · rw [if_pos hc] at hEq; omega
  · rw [if_neg hc] at hEq
    exact hne (char_eq_of_toNat_eq hEq.symm)

theorem splitOnC_ne_nil (c : Char) (s : Str) : splitOnC c s ≠ [] := by
  cases s with
  | nil => simp [splitOnC]
  | cons x t =>
    simp only [splitOnC]
    by_cases h : x = c
    · simp [h]
    · rw [if_neg h]
      cases splitOnC c t <;> simp

theorem mem_splitOnC_not_mem {c : Char} {s : Str} {p : Str}
    (hp : p ∈ splitOnC c s) : c ∉ p := by
  induction s generalizing p with
  | nil =>
    simp [splitOnC] at hp
    simp [hp]
  | cons x t ih =>
    simp only [splitOnC] at hp
    by_cases h : x = c
    · rw [if_pos h] at hp
      rcases List.mem_cons.mp hp with hp | hp
      · simp [hp]
      · exact ih hp
    · rw [if_neg h] at hp
      rcases he : splitOnC c t with _ | ⟨hd, tl⟩
      · exact absurd he (splitOnC_ne_nil c t)
      · rw [he] at hp
        rcases List.mem_cons.mp hp with hp | hp
        · subst hp
          intro hmem
          rcases List.mem_cons.mp hmem with hmem | hmem
          · exact h hmem.symm
          · exact (ih (by rw [he]; exact List.mem_cons_self _ _)) hmem
        · exact ih (by rw [he]; exact List.mem_cons_of_mem _ hp)

theorem mem_of_mem_splitOnC {c : Char} {s : Str} {p : Str} {a : Char}
    (hp : p ∈ splitOnC c s) (ha : a ∈ p) : a ∈ s := by
  induction s generalizing p with
  | nil =>
    simp [splitOnC] at hp
    subst hp
    simp at ha
  | cons x t ih =>
    simp only [splitOnC] at hp
    by_cases h : x = c
    · rw [if_pos h] at hp
      rcases List.mem_cons.mp hp with hp | hp
      · subst hp; simp at ha
      · exact List.mem_cons_of_mem _ (ih hp ha)
    · rw [if_neg h] at hp
      rcases he : splitOnC c t with _ | ⟨hd, tl⟩
      · exact absurd he (splitOnC_ne_nil c t)
      · rw [he] at hp
        rcases List.mem_cons.mp hp with hp | hp
        · subst hp
          rcases List.mem_cons.mp ha with ha | ha
          · exact ha ▸ List.mem_cons_self _ _
          · exact List.mem_cons_of_mem _
              (ih (by rw [he]; exact List.mem_cons_self _ _) ha)
        · exact List.mem_cons_of_mem _
            (ih (by rw [he]; exact List.mem_cons_of_mem _ hp) ha)

theorem splitOnC_append {c : Char} (x : Str) (s : Str) (hx : c ∉ x) :
    splitOnC c (x ++ s) = (x ++ (splitOnC c s).headI) :: (splitOnC c s).tail := by
  induction x with
  | nil =>
    simp only [List.nil_append]
    rcases he : splitOnC c s with _ | ⟨hd, tl⟩
    · exact absurd he (splitOnC_ne_nil c s)
    · simp
  | cons a x ih =>
    have ha : a ≠ c := fun h => hx (by simp [h])
    have hx' : c ∉ x := fun h => hx (List.mem_cons_of_mem _ h)
    rw [List.cons_append]
    simp only [splitOnC]
    rw [if_neg ha, ih hx']
    simp

theorem splitOnC_joinC {c : Char} (ps : List Str) (h : ∀ p ∈ ps, c ∉ p)
    (hne : ps ≠ []) : splitOnC c (joinC c ps) = ps := by
  induction ps with
  | nil => exact absurd rfl hne
  | cons p ps ih =>
    cases ps with
    | nil =>
      have hp : c ∉ p := h p (List.mem_cons_self _ _)
      have hj : joinC c [p] = p := rfl
      rw [hj]
      have := splitOnC_append p [] hp
      simpa [splitOnC] using this
    | cons q qs =>
      have hp : c ∉ p := h p (List.mem_cons_self _ _)
      have hrest : ∀ r ∈ q :: qs, c ∉ r := fun r hr => h r (List.mem_cons_of_mem _ hr)
      have hj : joinC c (p :: q :: qs) = p ++ c :: joinC c (q :: qs) := rfl
      rw [hj, splitOnC_append p _ hp]
      have hsplit : splitOnC c (c :: joinC c (q :: qs))
          = [] :: splitOnC c (joinC c (q :: qs)) := by
        simp [splitOnC]
      rw [hsplit, ih hrest (by simp)]
      simp

theorem lowerS_joinC (ps : List Str) :
    lowerS (joinC '-' ps) = joinC '-' (ps.map lowerS) := by
  induction ps with
  | nil => rfl
  | cons p ps ih =>
    cases ps with
    | nil => rfl
    | cons q qs =>
      have h1 : joinC '-' (p :: q :: qs) = p ++ '-' :: joinC '-' (q :: qs) := rfl
      have h2 : joinC '-' ((p :: q :: qs).map lowerS)
          = lowerS p ++ '-' :: joinC '-' ((q :: qs).map lowerS) := rfl
      rw [h1, h2, ← ih]
      simp [lowerS]
      decide

theorem mem_joinC {c : Char} {ps : List Str} {a : Char}
    (ha : a ∈ joinC c ps) : a = c ∨ ∃ p ∈ ps, a ∈ p := by
  induction ps with
  | nil => simp [joinC] at ha
  | cons p ps ih =>
    cases ps with
    | nil =>
      right
      exact ⟨p, List.mem_cons_self _ _, ha⟩
    | cons q qs =>
      have hj : joinC c (p :: q :: qs) = p ++ c :: joinC c (q :: qs) := rfl
      rw [hj] at ha
      rcases List.mem_append.mp ha with h | h
      · exact Or.inr ⟨p, List.mem_cons_self _ _, h⟩
      · rcases List.mem_cons.mp h with h | h
        · exact Or.inl h
        · rcases ih h with h | ⟨r, hr, har⟩
          · exact Or.inl h
          · exact Or.inr ⟨r, List.mem_cons_of_mem _ hr, har⟩

/-- C5 auxiliary: every character that `normalize_model_id` outputs is a
fixed point of `lowc`. -/
theorem lowc_fixed_of_mem_normalize {s : Str} {a : Char}
    (ha : a ∈ normalize_model_id s) : lowc a = a := by
  rw [normalize_model_id] at ha
  rcases mem_joinC ha with h | ⟨p, hp, hap⟩
  · subst h; decide
  · have hp' : p ∈ splitOnC '-' (lowerS s) := List.mem_of_mem_filter hp
    have ha' : a ∈ lowerS s := mem_of_mem_splitOnC hp' hap
    rcases List.mem_map.mp ha' with ⟨b, _, hb⟩
    rw [← hb]
    exact lowc_idem b

theorem map_lowc_fixed {l : Str} (h : ∀ a ∈ l, lowc a = a) : l.map lowc = l := by
  induction l with
  | nil => rfl
  | cons a t ih =>
    rw [List.map_cons, h a (List.mem_cons_self _ _),
      ih (fun b hb => h b (List.mem_cons_of_mem _ hb))]

/-- C5 auxiliary: `lowerS` fixes the output of `normalize_model_id`. -/
theorem lowerS_normalize (s : Str) :
    lowerS (normalize_model_id s) = normalize_model_id s :=
  map_lowc_fixed (fun _ ha => lowc_fixed_of_mem_normalize ha)

/--
Claim C5: `normalize_model_id` is idempotent: for every string `x`,
`normalize_model_id (normalize_model_id x) = normalize_model_id x`.
-/
theorem claim_C5 (x : Str) :
    normalize_model_id (normalize_model_id x) = normalize_model_id x := by
  set filtered := (splitOnC '-' (lowerS x)).filter
    (fun p => !(p.length == 8 && p.all Char.isDigit)) with hfil
  have hnx : normalize_model_id x = joinC '-' filtered := rfl
  rcases hf : filtered with _ | ⟨p0, ps⟩
  · rw [hnx, hf]
    decide
  · rw [show normalize_model_id (normalize_model_id x)
        = joinC '-' ((splitOnC '-' (lowerS (normalize_model_id x))).filter
          (fun p => !(p.length == 8 && p.all Char.isDigit))) from rfl]
    rw [lowerS_normalize, hnx]
    have hdashfree : ∀ p ∈ filtered, '-' ∉ p := by
      intro p hp
      exact mem_splitOnC_not_mem (List.mem_of_mem_filter hp)
    have hsplit : splitOnC '-' (joinC '-' filtered) = filtered :=
      splitOnC_joinC filtered hdashfree (by rw [hf]; simp)
    rw [hsplit]
    congr 1
    apply List.filter_eq_self.mpr
    intro p hp
    rw [hfil] at hp
    exact (List.mem_filter.mp hp).2

/--
Claim C3: `extract_version` tries its four version patterns in fixed
priority order — (a) a number surrounded by `-` separators mid-string,
(b) a number ending the string after a `-`, (c) a bare number ending the
string, (d) a number after a `/`-delimited segment and an alphabetic token
followed by `-` — and returns the numeric value of the first pattern that
matches, paired with the original unmodified identifier; if no pattern
matches it returns `(0.0, id)`.
-/
theorem claim_C3 (id : Str) :
    (extract_version id).2 = id ∧
    (∀ g, searchA id = some g → extract_version id = (qOfGroup g, id)) ∧
    (searchA id = none → ∀ g, searchB id = some g →
      extract_version id = (qOfGroup g, id)) ∧
    (searchA id = none → searchB id = none → ∀ g, searchC id = some g →
      extract_version id = (qOfGroup g, id)) ∧
    (searchA id = none → searchB id = none → searchC id = none → ∀ g,
      searchD id = some g → extract_version id = (qOfGroup g, id)) ∧
    (searchA id = none → searchB id = none → searchC id = none →
      searchD id = none → extract_version id = (0, id)) := by
  rcases hA : searchA id with _ | gA <;>
    rcases hB : searchB id with _ | gB <;>
      rcases hC : searchC id with _ | gC <;>
        rcases hD : searchD id with _ | gD <;>
          simp [extract_version, hA, hB, hC, hD]

/-- Witness for C3 at `"anthropic/claude-sonnet-4.5"`: pattern (a) fails,
pattern (b) captures `4.5`, and `extract_version` returns `(4.5, id)` with
the identifier unmodified. -/
theorem claim_C3_witness :
    searchA (str "anthropic/claude-sonnet-4.5") = none ∧
    searchB (str "anthropic/claude-sonnet-4.5") = some (str "4.5") ∧
    extract_version (str "anthropic/claude-sonnet-4.5")
      = (mkRat 9 2, str "anthropic/claude-sonnet-4.5") :=
  ⟨by decide, by decide,
    ((claim_C3 (str "anthropic/claude-sonnet-4.5")).2.2.1 (by decide)
      (str "4.5") (by decide)).trans (by decide)⟩

theorem not_dash_mem_lowerS {p : Str} (h : '-' ∉ p) : '-' ∉ lowerS p := by
  intro hmem
  rcases List.mem_map.mp hmem with ⟨a, ha, haeq⟩
  have hane : a ≠ '-' := fun he => h (by rw [he] at ha; exact ha)
  exact lowc_ne_of_lt_65 (by decide) hane haeq

/--
Claim C6: `normalize_model_id` lower-cases the input, splits it on `-`,
discards exactly those components that are 8 characters long and entirely
numeric (and no numeric component of any other length), and rejoins the
rest with `-`; it is total over all strings (it is a Lean function) and
returns the empty string on empty input.  Stated on an arbitrary string
presented as its `-`-separated components.
-/
theorem claim_C6 :
    normalize_model_id (str "") = str "" ∧
    ∀ parts : List Str, (∀ p ∈ parts, '-' ∉ p) →
      normalize_model_id (joinC '-' parts)
        = joinC '-' ((parts.map lowerS).filter
            (fun p => !(p.length == 8 && p.all Char.isDigit))) := by
  refine ⟨by decide, ?_⟩
  intro parts h
  cases parts with
  | nil => decide
  | cons p ps =>
    have hfree : ∀ q ∈ (p :: ps).map lowerS, '-' ∉ q := by
      intro q hq
      rcases List.mem_map.mp hq with ⟨r, hr, hrq⟩
      exact hrq ▸ not_dash_mem_lowerS (h r hr)
    rw [show normalize_model_id (joinC '-' (p :: ps))
        = joinC '-' ((splitOnC '-' (lowerS (joinC '-' (p :: ps)))).filter
            (fun q => !(q.length == 8 && q.all Char.isDigit))) from rfl]
    rw [lowerS_joinC, splitOnC_joinC ((p :: ps).map lowerS) hfree (by simp)]

/-- Witness for C6: `"Claude-20241022-Opus"` is lower-cased, its 8-digit
date component is dropped, and the rest is rejoined. -/
theorem claim_C6_witness :
    (∀ p ∈ [str "Claude", str "20241022", str "Opus"], '-' ∉ p) ∧
    normalize_model_id (joinC '-' [str "Claude", str "20241022", str "Opus"])
      = str "claude-opus" :=
  ⟨by decide, (claim_C6.2 [str "Claude", str "20241022", str "Opus"]
    (by decide)).trans (by decide)⟩

theorem alGet_alSet {V : Type} (m : List (Str × V)) (k k' : Str) (v : V) :
    alGet (alSet m k v) k' = if k = k' then some v else alGet m k' := by
  induction m with
  | nil =>
    simp only [alSet, alGet]
  | cons e t ih =>
    simp only [alSet]
    by_cases h : e.1 = k
    · rw [if_pos h]
      simp only [alGet]
      by_cases h' : k = k'
      · rw [if_pos h', if_pos h']
      · rw [if_neg h', if_neg h', if_neg (h ▸ h')]
    · rw [if_neg h]
      simp only [alGet, ih]
      by_cases h' : e.1 = k'
      · rw [if_pos h', if_neg (fun he2 : k = k' => h (h'.trans he2.symm)), if_pos h']
      · rw [if_neg h']
        by_cases hk : k = k'
        · rw [if_pos hk, if_pos hk]
        · rw [if_neg hk, if_neg hk, if_neg h']

theorem alGet_alUpd {V : Type} (m : List (Str × V)) (k k' : Str) (d : V)
    (f : V → V) :
    alGet (alUpd m k d f) k'
      = if k = k' then some (f ((alGet m k).getD d)) else alGet m k' := by
  rw [alUpd, alGet_alSet]

theorem mem_alSet {V : Type} {m : List (Str × V)} {k : Str} {v : V} {e : Str × V}
    (he : e ∈ alSet m k v) : e ∈ m ∨ e = (k, v) := by
  induction m with
  | nil =>
    simp only [alSet] at he
    rcases List.mem_cons.mp he with h | h
    · exact Or.inr h
    · simp at h
  | cons x t ih =>
    simp only [alSet] at he
    by_cases h : x.1 = k
    · rw [if_pos h] at he
      rcases List.mem_cons.mp he with he | he
      · exact Or.inr he
      · exact Or.inl (List.mem_cons_of_mem _ he)
    · rw [if_neg h] at he
      rcases List.mem_cons.mp he with he | he
      · exact Or.inl (he ▸ List.mem_cons_self _ _)
      · rcases ih he with he | he
        · exact Or.inl (List.mem_cons_of_mem _ he)
        · exact Or.inr he

theorem foldl_alSet_lastVal (regs : List (Str × Str)) :
    ∀ (acc : List (Str × Str)) (k : Str),
      alGet (regs.foldl (fun aliases r => alSet aliases r.1 r.2) acc) k
        = match lastVal regs k with
          | some v => some v
          | none => alGet acc k := by
  induction regs with
  | nil => intro acc k; rfl
  | cons r rest ih =>
    intro acc k
    rw [List.foldl_cons, ih]
    simp only [lastVal]
    cases lastVal rest k with
    | some v => rfl
    | none =>
      simp only [alGet_alSet]
      by_cases h : r.1 = k
      · rw [if_pos h, if_pos h]
      · rw [if_neg h, if_neg h]

theorem lastVal_some_mem {regs : List (Str × Str)} {k v : Str}
    (h : lastVal regs k = some v) : (k, v) ∈ regs := by
  induction regs with
  | nil => simp [lastVal] at h
  | cons r rest ih =>
    rcases hl : lastVal rest k with _ | w
    · have h2 : (if r.1 = k then some r.2 else none) = some v := by
        simp only [lastVal] at h
        rw [hl] at h
        exact h
      by_cases hk : r.1 = k
      · rw [if_pos hk] at h2
        have h3 : r.2 = v := Option.some.inj h2
        exact List.mem_cons.mpr (Or.inl (by rw [← hk, ← h3]))
      · rw [if_neg hk] at h2
        exact absurd h2 (by simp)
    · have h2 : some w = some v := by
        simp only [lastVal] at h
        rw [hl] at h
        exact h
      exact List.mem_cons_of_mem _ (ih (hl.trans h2))

theorem famRegs_val {fname : Str} {info : FamilyInfo} {e : Str × Str}
    (he : e ∈ famRegs fname info) : e.2 = info.latest := by
  simp only [famRegs, List.append_assoc] at he
  rcases List.mem_append.mp he with h | h
  · rcases List.mem_flatMap.mp h with ⟨member, _, hm⟩
    by_cases hlat : member ≠ info.latest
    · rw [if_pos hlat] at hm
      rcases List.mem_cons.mp hm with hm | hm
      · rw [hm]
      · by_cases hs : hasSlash member = true
        · rw [if_pos hs] at hm
          simp at hm
          rw [hm]
        · rw [if_neg hs] at hm
          simp at hm
    · rw [if_neg hlat] at hm
      simp at hm
  · rcases List.mem_append.mp h with h | h
    · simp at h
      rw [h]
    · split_ifs at h <;> simp at h <;> rcases h with h | h <;> simp [h]

/--
Claim C7: for every key `a` in the mapping returned by `generate_aliases`,
the value `aliases[a]` equals the `latest` field of some family in the
families mapping.
-/
theorem claim_C7 (families : List (Str × FamilyInfo)) (a v : Str)
    (h : alGet (generate_aliases families) a = some v) :
    ∃ e ∈ families, e.2.latest = v := by
  rw [generate_aliases, foldl_alSet_lastVal] at h
  rcases hl : lastVal (allRegs families) a with _ | w
  · rw [hl] at h
    have h2 : (alGet ([] : List (Str × Str)) a) = some v := h
    simp [alGet] at h2
  · rw [hl] at h
    have hw : w = v := Option.some.inj h
    have hmem := lastVal_some_mem hl
    rcases List.mem_flatMap.mp hmem with ⟨e, he, hr⟩
    exact ⟨e, he, by rw [← hw]; exact (famRegs_val hr).symm⟩

/-- Witness for C7: in `demoFamilies` the alias `"sonnet"` resolves to the
`latest` of the `claude-sonnet` family. -/
theorem claim_C7_witness :
    alGet (generate_aliases demoFamilies) (str "sonnet")
      = some (str "anthropic/claude-sonnet-4.5") ∧
    ∃ e ∈ demoFamilies, e.2.latest = str "anthropic/claude-sonnet-4.5" :=
  ⟨by decide,
   claim_C7 demoFamilies (str "sonnet") (str "anthropic/claude-sonnet-4.5")
     (by decide)⟩

/--
Claim C8: `generate_aliases` registers, for every family, the full id of
every non-latest member as an alias key, plus - when that member id
contains `/` - the substring after the last `/`, and the bare family name
itself, all mapping to that family's latest; and the resulting dict is
exactly "last registration wins": looking up any key yields the value of
the last registration of that key in family-iteration order, so a later
registration silently overwrites an earlier one.
-/
theorem claim_C8 (families : List (Str × FamilyInfo)) :
    (∀ fname info, (fname, info) ∈ families →
      (∀ m ∈ info.members, m ≠ info.latest →
        (m, info.latest) ∈ allRegs families ∧
        (hasSlash m = true → (lastSeg m, info.latest) ∈ allRegs families)) ∧
      (fname, info.latest) ∈ allRegs families) ∧
    (∀ k, alGet (generate_aliases families) k = lastVal (allRegs families) k) := by
  constructor
  · intro fname info hmem
    have hlift : ∀ x ∈ famRegs fname info, x ∈ allRegs families :=
      fun x hx => List.mem_flatMap.mpr ⟨(fname, info), hmem, hx⟩
    refine ⟨fun m hm hmne => ⟨?_, fun hs => ?_⟩, ?_⟩
    · apply hlift
      rw [famRegs]
      apply List.mem_append.mpr
      left
      apply List.mem_append.mpr
      left
      apply List.mem_flatMap.mpr
      refine ⟨m, hm, ?_⟩
      rw [if_pos hmne]
      exact List.mem_cons_self _ _
    · apply hlift
      rw [famRegs]
      apply List.mem_append.mpr
      left
      apply List.mem_append.mpr
      left
      apply List.mem_flatMap.mpr
      refine ⟨m, hm, ?_⟩
      rw [if_pos hmne]
      apply List.mem_cons_of_mem
      rw [if_pos hs]
      exact List.mem_cons_self _ _
    · apply hlift
      rw [famRegs]
      apply List.mem_append.mpr
      left
      apply List.mem_append.mpr
      right
      exact List.mem_cons_self _ _
  · intro k
    rw [generate_aliases, foldl_alSet_lastVal]
    rcases hl : lastVal (allRegs families) k with _ | w
    · rfl
    · rfl

/-- Witness for C8 at `demoFamilies`: the non-latest member of the
`claude-sonnet` family and its trailing segment are both registered, and
the lookup of the doubly-registered key `"gpt-4o"` is its last
registration's value. -/
theorem claim_C8_witness :
    ((str "claude-sonnet",
      ({ latest := str "anthropic/claude-sonnet-4.5",
         members := [str "anthropic/claude-sonnet-4.5",
                     str "anthropic/claude-3.5-sonnet"],
         tier := str "mid" } : FamilyInfo)) ∈ demoFamilies) ∧
    (str "anthropic/claude-3.5-sonnet", str "anthropic/claude-sonnet-4.5")
      ∈ allRegs demoFamilies ∧
    (str "claude-3.5-sonnet", str "anthropic/claude-sonnet-4.5")
      ∈ allRegs demoFamilies ∧
    alGet (generate_aliases demoFamilies) (str "gpt-4o")
      = lastVal (allRegs demoFamilies) (str "gpt-4o") := by
  have h := ((claim_C8 demoFamilies).1 (str "claude-sonnet")
    { latest := str "anthropic/claude-sonnet-4.5",
      members := [str "anthropic/claude-sonnet-4.5",
                  str "anthropic/claude-3.5-sonnet"],
      tier := str "mid" } (by decide)).1
    (str "anthropic/claude-3.5-sonnet") (by decide) (by decide)
  exact ⟨by decide, h.1, h.2 (by decide), (claim_C8 demoFamilies).2 (str "gpt-4o")⟩

theorem qAdd_eq (a b : ℚ) : qAdd a b = a + b := by
  rw [qAdd, Rat.mkRat_eq_div]
  have ha0 : ((a.den : ℚ)) ≠ 0 := Nat.cast_ne_zero.mpr a.den_nz
  have hb0 : ((b.den : ℚ)) ≠ 0 := Nat.cast_ne_zero.mpr b.den_nz
  have ha : ((a.den : ℤ) : ℚ) ≠ 0 := by exact_mod_cast ha0
  have hb : ((b.den : ℤ) : ℚ) ≠ 0 := by exact_mod_cast hb0
  conv_rhs => rw [← Rat.num_div_den a, ← Rat.num_div_den b]
  push_cast
  rw [div_add_div _ _ (by exact_mod_cast ha) (by exact_mod_cast hb)]
  ring_nf

theorem qDivNat_eq (a : ℚ) (n : ℕ) : qDivNat a n = a / n := by
  rw [qDivNat, Rat.mkRat_eq_div]
  conv_rhs => rw [← Rat.num_div_den a]
  push_cast
  rw [div_div]

theorem foldl_qAdd_eq (bs : BenchScores) :
    ∀ a : ℚ, bs.foldl (fun x y => qAdd x y.2) a = a + (bs.map Prod.snd).sum := by
  induction bs with
  | nil => intro a; simp
  | cons x t ih =>
    intro a
    rw [List.foldl_cons, ih, qAdd_eq, List.map_cons, List.sum_cons]
    ring

theorem calc_avg_get_not_mem (scores : Scores) :
    ∀ (acc : List (Str × ℚ)) (cat : Str), cat ∉ scores.map Prod.fst →
      alGet (scores.foldl
        (fun averages e =>
          if e.2.isEmpty then averages
          else alSet averages e.1
            (pyRound4 (qDivNat (e.2.foldl (fun a b => qAdd a b.2) 0) e.2.length)))
        acc) cat = alGet acc cat := by
  induction scores with
  | nil => intro acc cat _; rfl
  | cons e rest ih =>
    intro acc cat hcat
    have hne : e.1 ≠ cat := by
      intro h
      exact hcat (by rw [List.map_cons, h]; exact List.mem_cons_self _ _)
    have hcat' : cat ∉ rest.map Prod.fst := fun h =>
      hcat (by rw [List.map_cons]; exact List.mem_cons_of_mem _ h)
    rw [List.foldl_cons, ih _ cat hcat']
    by_cases hemp : e.2.isEmpty
    · rw [if_pos hemp]
    · rw [if_neg hemp, alGet_alSet, if_neg hne]

theorem calc_avg_get_mem (scores : Scores) :
    ∀ (acc : List (Str × ℚ)) (cat : Str) (bs : BenchScores),
      (scores.map Prod.fst).Nodup → (cat, bs) ∈ scores →
      alGet (scores.foldl
        (fun averages e =>
          if e.2.isEmpty then averages
          else alSet averages e.1
            (pyRound4 (qDivNat (e.2.foldl (fun a b => qAdd a b.2) 0) e.2.length)))
        acc) cat
      = if bs.isEmpty then alGet acc cat
        else some (pyRound4 (qDivNat (bs.foldl (fun a b => qAdd a b.2) 0) bs.length)) := by
  induction scores with
  | nil =>
    intro acc cat bs _ hmem
    simp at hmem
  | cons e rest ih =>
    intro acc cat bs hnodup hmem
    rw [List.map_cons] at hnodup
    have hnodup' := hnodup.of_cons
    have hhead : e.1 ∉ rest.map Prod.fst := (List.nodup_cons.mp hnodup).1
    rcases List.mem_cons.mp hmem with hmem | hmem
    · have hcat : cat = e.1 := congrArg Prod.fst hmem
      have hbs : bs = e.2 := congrArg Prod.snd hmem
      have hcat' : cat ∉ rest.map Prod.fst := hcat ▸ hhead
      rw [List.foldl_cons, calc_avg_get_not_mem rest _ cat hcat', ← hbs]
      by_cases hemp : bs.isEmpty
      · rw [if_pos (hbs ▸ hemp), if_pos hemp]
      · rw [if_neg (hbs ▸ hemp), if_neg hemp, alGet_alSet, if_pos hcat.symm, hbs]
    · have hcatrest : cat ∈ rest.map Prod.fst :=
        List.mem_map.mpr ⟨(cat, bs), hmem, rfl⟩
      have hne : e.1 ≠ cat := fun h => hhead (h ▸ hcatrest)
      rw [List.foldl_cons, ih _ cat bs hnodup' hmem]
      by_cases hemp : e.2.isEmpty
      · rw [if_pos hemp]
      · rw [if_neg hemp]
        by_cases hbs : bs.isEmpty
        · rw [if_pos hbs, if_pos hbs, alGet_alSet, if_neg hne]
        · rw [if_neg hbs, if_neg hbs]

/--
Claim C9: `calculate_category_averages` returns, for each category with at
least one benchmark score, the arithmetic mean of that category's scores
rounded to 4 decimal places, and omits every category with zero recorded
benchmarks; `calculate_category_averages {}` is the empty mapping, and on
`{"math": {"aime": 0.8, "gsm8k": 0.6}}` it returns `{"math": 0.7}`.
-/
theorem claim_C9 :
    calculate_category_averages [] = [] ∧
    calculate_category_averages
        [(str "math", [(str "aime", mkRat 8 10), (str "gsm8k", mkRat 6 10)])]
      = [(str "math", mkRat 7 10)] ∧
    (∀ (scores : Scores) (cat : Str), cat ∉ scores.map Prod.fst →
      alGet (calculate_category_averages scores) cat = none) ∧
    (∀ scores : Scores, (scores.map Prod.fst).Nodup →
      ∀ cat bs, (cat, bs) ∈ scores →
        (bs = [] → alGet (calculate_category_averages scores) cat = none) ∧
        (bs ≠ [] → alGet (calculate_category_averages scores) cat
            = some (pyRound4 ((bs.map Prod.snd).sum / (bs.length : ℚ))))) := by
  refine ⟨rfl, by decide, ?_, ?_⟩
  · intro scores cat hcat
    rw [calculate_category_averages, calc_avg_get_not_mem scores [] cat hcat]
    rfl
  · intro scores hnodup cat bs hmem
    have hkey := calc_avg_get_mem scores [] cat bs hnodup hmem
    constructor
    · intro hbs
      rw [calculate_category_averages, hkey, if_pos (by rw [hbs]; rfl)]
      rfl
    · intro hbs
      have hbs' : bs.isEmpty = false := by
        cases bs with
        | nil => exact absurd rfl hbs
        | cons x t => rfl
      rw [calculate_category_averages, hkey, hbs']
      simp only [Bool.false_eq_true, if_false]
      congr 2
      rw [foldl_qAdd_eq, zero_add, qDivNat_eq]

/-- Witness for C9: a two-category mapping with one empty category; the
nonempty one gets the rounded mean, the empty one is omitted, and a
category never present is absent. -/
theorem claim_C9_witness :
    ((str "math", [(str "aime", mkRat 8 10)])
        ∈ [(str "math", [(str "aime", mkRat 8 10)]), (str "tool", ([] : BenchScores))]) ∧
    ((str "tool", ([] : BenchScores))
        ∈ [(str "math", [(str "aime", mkRat 8 10)]), (str "tool", ([] : BenchScores))]) ∧
    alGet (calculate_category_averages
        [(str "math", [(str "aime", mkRat 8 10)]), (str "tool", ([] : BenchScores))])
        (str "math")
      = some (pyRound4 (([(str "aime", mkRat 8 10)].map Prod.snd).sum
          / (([(str "aime", mkRat 8 10)] : BenchScores).length : ℚ))) ∧
    alGet (calculate_category_averages
        [(str "math", [(str "aime", mkRat 8 10)]), (str "tool", ([] : BenchScores))])
        (str "tool") = none ∧
    alGet (calculate_category_averages
        [(str "math", [(str "aime", mkRat 8 10)]), (str "tool", ([] : BenchScores))])
        (str "code") = none :=
  ⟨by decide, by decide,
   ((claim_C9.2.2.2 [(str "math", [(str "aime", mkRat 8 10)]), (str "tool", [])]
      (by decide) (str "math") [(str "aime", mkRat 8 10)] (by decide)).2 (by decide)),
   ((claim_C9.2.2.2 [(str "math", [(str "aime", mkRat 8 10)]), (str "tool", [])]
      (by decide) (str "tool") [] (by decide)).1 rfl),
   (claim_C9.2.2.1 [(str "math", [(str "aime", mkRat 8 10)]), (str "tool", [])]
      (str "code") (by decide))⟩

theorem scanFind_eq_first (mnn : Str) :
    ∀ (pre : ScoreIndex) (k : Str) (v : Scores) (post : ScoreIndex),
      (∀ e ∈ pre, (subIn mnn e.1 || subIn e.1 mnn) = false) →
      (subIn mnn k || subIn k mnn) = true →
      scanFind mnn (pre ++ (k, v) :: post) = some v := by
  intro pre
  induction pre with
  | nil =>
    intro k v post _ hk
    rw [List.nil_append]
    simp only [scanFind]
    rw [hk]
    rfl
  | cons e pre ih =>
    intro k v post hpre hk
    rw [List.cons_append]
    have he : (subIn mnn e.1 || subIn e.1 mnn) = false :=
      hpre e (List.mem_cons_self _ _)
    simp only [scanFind]
    rw [he]
    simp only [Bool.false_eq_true, if_false]
    exact ih k v post (fun x hx => hpre x (List.mem_cons_of_mem _ hx)) hk

theorem scanFind_none (mnn : Str) :
    ∀ idx : ScoreIndex, (∀ e ∈ idx, (subIn mnn e.1 || subIn e.1 mnn) = false) →
      scanFind mnn idx = none := by
  intro idx
  induction idx with
  | nil => intro _; rfl
  | cons e rest ih =>
    intro hall
    simp only [scanFind]
    rw [hall e (List.mem_cons_self _ _)]
    simp only [Bool.false_eq_true, if_false]
    exact ih (fun x hx => hall x (List.mem_cons_of_mem _ hx))

/--
Claim C2: `match_model target_id index` applies exactly three tiers in
order, first success winning: exact lookup of `target_id`; lookup of
`normalize_model_id target_id`; and - only when `target_id` contains `/` -
a scan of the index in iteration order for the first key related to the
normalized trailing segment by substring containment in either direction;
when every tier fails it returns `none` (and, being a total function, it
raises no exception).
-/
theorem claim_C2 (target_id : Str) (index : ScoreIndex) :
    (∀ v, alGet index target_id = some v → match_model target_id index = some v) ∧
    (alGet index target_id = none →
      ∀ v, alGet index (normalize_model_id target_id) = some v →
        match_model target_id index = some v) ∧
    (alGet index target_id = none →
      alGet index (normalize_model_id target_id) = none →
      hasSlash target_id = true →
      (match_model target_id index
        = scanFind (normalize_model_id (lastSeg target_id)) index) ∧
      ∀ pre k v post, index = pre ++ (k, v) :: post →
        (∀ e ∈ pre, tier3rel target_id e.1 = false) →
        tier3rel target_id k = true →
        match_model target_id index = some v) ∧
    (alGet index target_id = none →
      alGet index (normalize_model_id target_id) = none →
      hasSlash target_id = false →
      match_model target_id index = none) ∧
    (alGet index target_id = none →
      alGet index (normalize_model_id target_id) = none →
      (∀ e ∈ index, tier3rel target_id e.1 = false) →
      match_model target_id index = none) := by
  refine ⟨?_, ?_, ?_, ?_, ?_⟩
  · intro v hv
    simp [match_model, hv]
  · intro h1 v hv
    simp [match_model, h1, hv]
  · intro h1 h2 h3
    constructor
    · simp [match_model, h1, h2, h3]
    · intro pre k v post hidx hpre hk
      subst hidx
      simp only [match_model, h1, h2, h3, if_true]
      exact scanFind_eq_first _ pre k v post hpre hk
  · intro h1 h2 h3
    simp [match_model, h1, h2, h3]
  · intro h1 h2 hall
    by_cases h3 : hasSlash target_id
    · simp [match_model, h1, h2, h3, scanFind_none _ index hall]
    · simp [match_model, h1, h2, h3]

/-- Witness for C2: with `demoIndex` containing the key
`"anthropic/claude-sonnet-4.5"`, that exact target is resolved by tier 1. -/
theorem claim_C2_witness :
    alGet demoIndex (str "anthropic/claude-sonnet-4.5")
      = some [(str "code", [(str "swe", mkRat 77 100)])] ∧
    match_model (str "anthropic/claude-sonnet-4.5") demoIndex
      = some [(str "code", [(str "swe", mkRat 77 100)])] :=
  ⟨by decide,
   (claim_C2 (str "anthropic/claude-sonnet-4.5") demoIndex).1 _ (by decide)⟩

theorem idxGet3_write3_self (m : ScoreIndex) (k c b : Str) (s : ℚ) :
    idxGet3 (write3 m k c b s) k c b = some s := by
  rw [idxGet3, write3, alGet_alUpd, if_pos rfl]
  simp only [Option.some_bind]
  rw [alGet_alUpd, if_pos rfl]
  simp only [Option.some_bind]
  rw [alGet_alSet, if_pos rfl]

theorem idxGet3_write3_mono (m : ScoreIndex) (k c b k' c' b' : Str) (s : ℚ)
    (h : (idxGet3 m k c b).isSome = true) :
    (idxGet3 (write3 m k' c' b' s) k c b).isSome = true := by
  rcases hk : alGet m k with _ | cats
  · rw [idxGet3, hk] at h
    simp at h
  rcases hc : alGet cats c with _ | bs
  · rw [idxGet3, hk] at h
    simp [hc] at h
  rcases hb : alGet bs b with _ | sc
  · rw [idxGet3, hk] at h
    simp [hc, hb] at h
  by_cases hkk : k' = k
  · subst hkk
    rw [idxGet3, write3, alGet_alUpd, if_pos rfl, hk]
    simp only [Option.getD_some, Option.some_bind]
    rw [alGet_alUpd]
    by_cases hcc : c' = c
    · subst hcc
      rw [if_pos rfl, hc]
      simp only [Option.getD_some, Option.some_bind]
      rw [alGet_alSet]
      by_cases hbb : b' = b
      · rw [if_pos hbb]
        rfl
      · rw [if_neg hbb, hb]
        rfl
    · rw [if_neg hcc, hc]
      simp only [Option.some_bind]
      rw [hb]
      rfl
  · rw [idxGet3, write3, alGet_alUpd, if_neg hkk, hk]
    simp only [Option.some_bind]
    rw [hc]
    simp only [Option.some_bind]
    rw [hb]
    rfl

theorem applyWrites_isSome (ws : List (Str × Str × Str × ℚ)) :
    ∀ (m : ScoreIndex) (k c b : Str) (s : ℚ),
      ((k, c, b, s) ∈ ws ∨ (idxGet3 m k c b).isSome = true) →
      (idxGet3 (ws.foldl (fun m w => write3 m w.1 w.2.1 w.2.2.1 w.2.2.2) m)
        k c b).isSome = true := by
  induction ws with
  | nil =>
    intro m k c b s h
    rcases h with h | h
    · simp at h
    · exact h
  | cons w rest ih =>
    intro m k c b s h
    rw [List.foldl_cons]
    rcases h with h | h
    · rcases List.mem_cons.mp h with h | h
      · apply ih _ k c b s
        right
        rw [← h]
        rw [show ((k, c, b, s) : Str × Str × Str × ℚ).1 = k from rfl]
        rw [idxGet3_write3_self]
        rfl
      · exact ih _ k c b s (Or.inl h)
    · exact ih _ k c b s (Or.inr (idxGet3_write3_mono m k c b w.1 w.2.1 w.2.2.1 w.2.2.2 h))

theorem normalized_write_mem {data : BenchData} {cat : Str}
    {benches : List (Str × Option (List ScoreRow))} {bid : Str}
    {rows : List ScoreRow} {row : ScoreRow} {sc : ℚ}
    (h1 : (cat, benches) ∈ data) (h2 : (bid, some rows) ∈ benches)
    (h3 : row ∈ rows) (h4 : row.score = some sc) (h5 : row.model_id ≠ []) :
    (normalize_model_id row.model_id, cat, bid, sc) ∈ writesOf data := by
  apply List.mem_flatMap.mpr
  refine ⟨(cat, benches), h1, ?_⟩
  apply List.mem_flatMap.mpr
  refine ⟨(bid, some rows), h2, ?_⟩
  show _ ∈ rows.flatMap _
  apply List.mem_flatMap.mpr
  refine ⟨row, h3, ?_⟩
  show _ ∈ (match row.score with
    | none => []
    | some sc =>
      if row.model_id = [] then []
      else
        (row.model_id, cat, bid, sc) ::
          (if normalize_model_id row.model_id ≠ row.model_id then
            [(normalize_model_id row.model_id, cat, bid, sc)]
           else []))
  simp only [h4]
  rw [if_neg h5]
  by_cases hn : normalize_model_id row.model_id = row.model_id
  · exact List.mem_cons.mpr (Or.inl (by rw [hn]))
  · apply List.mem_cons_of_mem
    rw [if_pos hn]
    exact List.mem_cons_self _ _

/--
Claim C10 (implicit): in the index built by `build_model_score_map`, when
two distinct raw benchmark-catalog identifiers share a normalized form
(including the case where one identifier's normalized form is the other's
raw form), their scores land in the single index entry under that shared
key: both benchmark slots are populated under it; consequently a tier-2
(normalized) lookup by `match_model` returns that combined entry.
-/
theorem claim_C10 (data : BenchData)
    (cat₁ : Str) (benches₁ : List (Str × Option (List ScoreRow))) (bid₁ : Str)
    (rows₁ : List ScoreRow) (row₁ : ScoreRow) (s₁ : ℚ)
    (cat₂ : Str) (benches₂ : List (Str × Option (List ScoreRow))) (bid₂ : Str)
    (rows₂ : List ScoreRow) (row₂ : ScoreRow) (s₂ : ℚ)
    (h₁ : (cat₁, benches₁) ∈ data) (h₁b : (bid₁, some rows₁) ∈ benches₁)
    (h₁r : row₁ ∈ rows₁) (h₁s : row₁.score = some s₁) (h₁id : row₁.model_id ≠ [])
    (h₂ : (cat₂, benches₂) ∈ data) (h₂b : (bid₂, some rows₂) ∈ benches₂)
    (h₂r : row₂ ∈ rows₂) (h₂s : row₂.score = some s₂) (h₂id : row₂.model_id ≠ [])
    (_hdistinct : row₁.model_id ≠ row₂.model_id)
    (hshared : normalize_model_id row₁.model_id
      = normalize_model_id row₂.model_id) :
    ((idxGet3 (build_model_score_map data)
        (normalize_model_id row₁.model_id) cat₁ bid₁).isSome = true) ∧
    ((idxGet3 (build_model_score_map data)
        (normalize_model_id row₁.model_id) cat₂ bid₂).isSome = true) ∧
    (∀ t : Str, alGet (build_model_score_map data) t = none →
      normalize_model_id t = normalize_model_id row₁.model_id →
      match_model t (build_model_score_map data)
        = alGet (build_model_score_map data) (normalize_model_id row₁.model_id) ∧
      (alGet (build_model_score_map data)
        (normalize_model_id row₁.model_id)).isSome = true) := by
  have hw₁ := normalized_write_mem h₁ h₁b h₁r h₁s h₁id
  have hw₂ := normalized_write_mem h₂ h₂b h₂r h₂s h₂id
  rw [← hshared] at hw₂
  have hg₁ : (idxGet3 (build_model_score_map data)
      (normalize_model_id row₁.model_id) cat₁ bid₁).isSome = true := by
    rw [build_model_score_map]
    exact applyWrites_isSome _ [] _ _ _ s₁ (Or.inl hw₁)
  have hg₂ : (idxGet3 (build_model_score_map data)
      (normalize_model_id row₁.model_id) cat₂ bid₂).isSome = true := by
    rw [build_model_score_map]
    exact applyWrites_isSome _ [] _ _ _ s₂ (Or.inl hw₂)
  have hkey : (alGet (build_model_score_map data)
      (normalize_model_id row₁.model_id)).isSome = true := by
    rcases hk : alGet (build_model_score_map data)
        (normalize_model_id row₁.model_id) with _ | cats
    · rw [idxGet3, hk] at hg₁
      simp at hg₁
    · rfl
  refine ⟨hg₁, hg₂, fun t ht hn => ⟨?_, hkey⟩⟩
  rcases hk : alGet (build_model_score_map data)
      (normalize_model_id row₁.model_id) with _ | cats
  · rw [hk] at hkey
    simp at hkey
  · have hk' : alGet (build_model_score_map data) (normalize_model_id t)
        = some cats := by
      rw [hn]
      exact hk
    simp [match_model, ht, hk']

/-- Witness for C10 at `demoBenchData`: the dated variants
`claude-3-sonnet-20240229` and `claude-3-sonnet-20240620` share the
normalized key `claude-3-sonnet`, under which both the `code/swe` and
`math/aime` slots are populated, and a fresh dated target reaches that
combined entry through tier 2. -/
theorem claim_C10_witness :
    (idxGet3 (build_model_score_map demoBenchData)
      (normalize_model_id (str "claude-3-sonnet-20240229"))
      (str "code") (str "swe")).isSome = true ∧
    (idxGet3 (build_model_score_map demoBenchData)
      (normalize_model_id (str "claude-3-sonnet-20240229"))
      (str "math") (str "aime")).isSome = true ∧
    match_model (str "claude-3-sonnet-20231022") (build_model_score_map demoBenchData)
      = alGet (build_model_score_map demoBenchData)
          (normalize_model_id (str "claude-3-sonnet-20240229")) := by
  have H := claim_C10 demoBenchData
    (str "code")
    [(str "swe", some [{ model_id := str "claude-3-sonnet-20240229", score := some (mkRat 1 2) },
                       { model_id := str "claude-3-sonnet-20240620", score := some (mkRat 7 10) }]),
     (str "humaneval", none)]
    (str "swe")
    [{ model_id := str "claude-3-sonnet-20240229", score := some (mkRat 1 2) },
     { model_id := str "claude-3-sonnet-20240620", score := some (mkRat 7 10) }]
    { model_id := str "claude-3-sonnet-20240229", score := some (mkRat 1 2) }
    (mkRat 1 2)
    (str "math")
    [(str "aime", some [{ model_id := str "claude-3-sonnet-20240620", score := some (mkRat 6 10) },
                        { model_id := str "gpt-4o", score := some (mkRat 8 10) }])]
    (str "aime")
    [{ model_id := str "claude-3-sonnet-20240620", score := some (mkRat 6 10) },
     { model_id := str "gpt-4o", score := some (mkRat 8 10) }]
    { model_id := str "claude-3-sonnet-20240620", score := some (mkRat 6 10) }
    (mkRat 6 10)
    (by decide) (by decide) (by decide) (by decide) (by decide)
    (by decide) (by decide) (by decide) (by decide) (by decide)
    (by decide) (by decide)
  exact ⟨H.1, H.2.1,
    (H.2.2 (str "claude-3-sonnet-20231022") (by decide) (by decide)).1⟩

theorem famStep_none {st : List (Str × List (Str × ℚ)) × List (Str × Str)}
    {model : CatalogModel}
    (h : firstRule MODEL_FAMILY_PATTERNS model.id = none) :
    famStep st model = st := by
  simp [famStep, h]

theorem famStep_some {st : List (Str × List (Str × ℚ)) × List (Str × Str)}
    {model : CatalogModel} {fam tier : Str}
    (h : firstRule MODEL_FAMILY_PATTERNS model.id = some (fam, tier)) :
    famStep st model
      = (alUpd st.1 fam []
          (fun l => l ++ [(model.id, (extract_version model.id).1)]),
         alSet st.2 fam tier) := by
  simp [famStep, h]

theorem assignedOf_cons_none {f : Str} {model : CatalogModel}
    {ms : List CatalogModel}
    (h : firstRule MODEL_FAMILY_PATTERNS model.id = none) :
    assignedOf f (model :: ms) = assignedOf f ms := by
  simp [assignedOf, h]

theorem assignedOf_cons_eq {f : Str} {model : CatalogModel}
    {ms : List CatalogModel} {tier : Str}
    (h : firstRule MODEL_FAMILY_PATTERNS model.id = some (f, tier)) :
    assignedOf f (model :: ms)
      = ((model.id, (extract_version model.id).1), tier) :: assignedOf f ms := by
  simp [assignedOf, h]

theorem assignedOf_cons_ne {f : Str} {model : CatalogModel}
    {ms : List CatalogModel} {fam tier : Str}
    (h : firstRule MODEL_FAMILY_PATTERNS model.id = some (fam, tier))
    (hne : fam ≠ f) :
    assignedOf f (model :: ms) = assignedOf f ms := by
  simp [assignedOf, h, hne]

theorem famFold_spec (ms : List CatalogModel) :
    ∀ (acc : List (Str × List (Str × ℚ)) × List (Str × Str)) (f : Str),
      (alGet (ms.foldl famStep acc).1 f = none
        ↔ alGet acc.1 f = none ∧ assignedOf f ms = []) ∧
      ((alGet (ms.foldl famStep acc).1 f).getD []
        = (alGet acc.1 f).getD [] ++ (assignedOf f ms).map Prod.fst) ∧
      (alGet (ms.foldl famStep acc).2 f
        = (lastTierOf (assignedOf f ms)).elim (alGet acc.2 f) some) := by
  induction ms with
  | nil =>
    intro acc f
    refine ⟨?_, ?_, ?_⟩
    · simp [assignedOf]
    · simp [assignedOf]
    · simp [assignedOf, lastTierOf]
  | cons model ms ih =>
    intro acc f
    rcases hfr : firstRule MODEL_FAMILY_PATTERNS model.id with _ | ⟨fam, tier⟩
    · rw [List.foldl_cons, famStep_none hfr, assignedOf_cons_none hfr]
      exact ih acc f
    · by_cases hf : fam = f
      · rw [hf] at hfr
        rw [List.foldl_cons, famStep_some hfr, assignedOf_cons_eq hfr]
        have ih' := ih (alUpd acc.1 f []
          (fun l => l ++ [(model.id, (extract_version model.id).1)]),
          alSet acc.2 f tier) f
        have hg1 : alGet (alUpd acc.1 f []
            (fun l => l ++ [(model.id, (extract_version model.id).1)])) f
            = some ((alGet acc.1 f).getD []
                ++ [(model.id, (extract_version model.id).1)]) := by
          rw [alGet_alUpd, if_pos rfl]
        have hg2 : alGet (alSet acc.2 f tier) f = some tier := by
          rw [alGet_alSet, if_pos rfl]
        refine ⟨?_, ?_, ?_⟩
        · rw [ih'.1, hg1]
          simp
        · rw [ih'.2.1, hg1]
          simp
        · rw [ih'.2.2, hg2]
          simp only [lastTierOf]
          cases lastTierOf (assignedOf f ms) with
          | none => rfl
          | some t => rfl
      · rw [List.foldl_cons, famStep_some hfr, assignedOf_cons_ne hfr hf]
        have ih' := ih (alUpd acc.1 fam []
          (fun l => l ++ [(model.id, (extract_version model.id).1)]),
          alSet acc.2 fam tier) f
        have hg1 : alGet (alUpd acc.1 fam []
            (fun l => l ++ [(model.id, (extract_version model.id).1)])) f
            = alGet acc.1 f := by
          rw [alGet_alUpd, if_neg hf]
        have hg2 : alGet (alSet acc.2 fam tier) f = alGet acc.2 f := by
          rw [alGet_alSet, if_neg hf]
        refine ⟨?_, ?_, ?_⟩
        · rw [ih'.1, hg1]
        · rw [ih'.2.1, hg1]
        · rw [ih'.2.2, hg2]

theorem famGroups_get (models : List CatalogModel) (f : Str) :
    alGet (famGroups models) f
      = if assignedOf f models = [] then none
        else some ((assignedOf f models).map Prod.fst) := by
  have h := famFold_spec models ([], []) f
  by_cases hass : assignedOf f models = []
  · rw [if_pos hass]
    exact h.1.mpr ⟨rfl, hass⟩
  · rw [if_neg hass]
    rcases hg : alGet (famGroups models) f with _ | l
    · exact absurd ((h.1.mp hg).2) hass
    · have h2 := h.2.1
      rw [show alGet (List.foldl famStep ([], []) models).1 f
        = alGet (famGroups models) f from rfl, hg] at h2
      simp only [Option.getD_some] at h2
      simp only [alGet, Option.getD_none, List.nil_append] at h2
      rw [h2]

theorem famTiers_get (models : List CatalogModel) (f : Str) :
    alGet (famTiers models) f = lastTierOf (assignedOf f models) := by
  have h := (famFold_spec models ([], []) f).2.2
  rw [show alGet (List.foldl famStep ([], []) models).2 f
    = alGet (famTiers models) f from rfl] at h
  rw [h]
  cases lastTierOf (assignedOf f models) with
  | none => rfl
  | some t => rfl

theorem assignedOf_shape {f : Str} {ms : List CatalogModel}
    {a : (Str × ℚ) × Str} (ha : a ∈ assignedOf f ms) :
    a.1.2 = (extract_version a.1.1).1 ∧
    firstRule MODEL_FAMILY_PATTERNS a.1.1 = some (f, a.2) := by
  rcases List.mem_filterMap.mp ha with ⟨model, _, heq⟩
  rcases hfr : firstRule MODEL_FAMILY_PATTERNS model.id with _ | ⟨fam, tier⟩
  · rw [hfr] at heq
    simp at heq
  · rw [hfr] at heq
    have heq2 : (if fam = f then
        some ((model.id, (extract_version model.id).1), tier) else none)
        = some a := heq
    by_cases hff : fam = f
    · rw [if_pos hff] at heq2
      have h3 := Option.some.inj heq2
      rw [← h3]
      exact ⟨rfl, by rw [hfr, hff]⟩
    · rw [if_neg hff] at heq2
      simp at heq2

theorem insertionSort_ne_nil {l : List (Str × ℚ)} (h : l ≠ []) :
    List.insertionSort verLe l ≠ [] := by
  intro hs
  have hlen := (List.perm_insertionSort verLe l).length_eq
  rw [hs] at hlen
  exact h (List.length_eq_zero.mp hlen.symm)

theorem NE_famGroups (models : List CatalogModel) :
    ∀ e ∈ famGroups models, e.2 ≠ ([] : List (Str × ℚ)) := by
  rw [famGroups]
  suffices hgen : ∀ (ms : List CatalogModel)
      (acc : List (Str × List (Str × ℚ)) × List (Str × Str)),
      (∀ e ∈ acc.1, e.2 ≠ ([] : List (Str × ℚ))) →
      ∀ e ∈ (ms.foldl famStep acc).1, e.2 ≠ ([] : List (Str × ℚ)) by
    exact hgen models ([], []) (by intro e he; simp at he)
  intro ms
  induction ms with
  | nil => intro acc hacc; exact hacc
  | cons model ms ih =>
    intro acc hacc
    rw [List.foldl_cons]
    apply ih
    rcases hfr : firstRule MODEL_FAMILY_PATTERNS model.id with _ | ⟨fam, tier⟩
    · rw [famStep_none hfr]
      exact hacc
    · rw [famStep_some hfr]
      intro e he
      rcases mem_alSet he with he | he
      · exact hacc e he
      · rw [he]
        simp

theorem alGet_filterMap_mkInfo (tiers : List (Str × Str)) :
    ∀ (m : List (Str × List (Str × ℚ))), (∀ e ∈ m, e.2 ≠ []) → ∀ f,
      alGet (m.filterMap (fun e => mkInfo tiers e.1 e.2)) f
        = (alGet m f).bind (fun l => (mkInfo tiers f l).map Prod.snd) := by
  intro m
  induction m with
  | nil => intro _ f; rfl
  | cons e m ih =>
    intro hne f
    have hene : e.2 ≠ [] := hne e (List.mem_cons_self _ _)
    rcases hs : List.insertionSort verLe e.2 with _ | ⟨m₀, ms₀⟩
    · exact absurd hs (insertionSort_ne_nil hene)
    · have hmk : mkInfo tiers e.1 e.2
          = some (e.1, { latest := m₀.1, members := (m₀ :: ms₀).map Prod.fst,
                         tier := (alGet tiers e.1).getD (str "mid") }) := by
        simp [mkInfo, hs]
      rw [List.filterMap_cons, hmk]
      simp only [alGet]
      by_cases hf : e.1 = f
      · rw [if_pos hf, if_pos hf]
        subst hf
        simp only [Option.some_bind]
        rw [hmk]
        rfl
      · rw [if_neg hf, if_neg hf]
        exact ih (fun x hx => hne x (List.mem_cons_of_mem _ hx)) f

theorem alGet_infer (models : List CatalogModel) (f : Str) :
    alGet (infer_model_families models) f
      = (alGet (famGroups models) f).bind
          (fun l => (mkInfo (famTiers models) f l).map Prod.snd) := by
  rw [infer_model_families]
  exact alGet_filterMap_mkInfo (famTiers models) (famGroups models)
    (NE_famGroups models) f

theorem filter_orderedInsert (v : ℚ) (x : Str × ℚ) (l : List (Str × ℚ)) :
    (List.orderedInsert verLe x l).filter (fun y => y.2 == v)
      = if x.2 = v then x :: l.filter (fun y => y.2 == v)
        else l.filter (fun y => y.2 == v) := by
  induction l with
  | nil =>
    by_cases hxv : x.2 = v <;>
      simp [List.orderedInsert, List.filter_cons, hxv]
  | cons y l ih =>
    by_cases hxy : verLe x y
    · simp only [List.orderedInsert]
      rw [if_pos hxy]
      by_cases hxv : x.2 = v <;> by_cases hyv : y.2 = v <;>
        simp [List.filter_cons, hxv, hyv]
    · simp only [List.orderedInsert]
      rw [if_neg hxy]
      have hlt : x.2 < y.2 := not_le.mp hxy
      by_cases hxv : x.2 = v
      · have hyv : ¬ y.2 = v := by
          intro h
          rw [hxv, h] at hlt
          exact lt_irrefl v hlt
        simp [List.filter_cons, ih, hxv, hyv]
      · by_cases hyv : y.2 = v <;> simp [List.filter_cons, ih, hxv, hyv]

theorem filter_insertionSort (v : ℚ) (l : List (Str × ℚ)) :
    (List.insertionSort verLe l).filter (fun y => y.2 == v)
      = l.filter (fun y => y.2 == v) := by
  induction l with
  | nil => rfl
  | cons x l ih =>
    simp only [List.insertionSort]
    rw [filter_orderedInsert]
    by_cases hxv : x.2 = v <;> simp [List.filter_cons, ih, hxv]

theorem lastTierOf_spec {l : List ((Str × ℚ) × Str)} (h : l ≠ []) :
    ∃ a ∈ l, lastTierOf l = some a.2 := by
  induction l with
  | nil => exact absurd rfl h
  | cons a rest ih =>
    cases rest with
    | nil => exact ⟨a, List.mem_cons_self _ _, rfl⟩
    | cons b rest2 =>
      rcases ih (by simp) with ⟨a', ha', heq⟩
      refine ⟨a', List.mem_cons_of_mem _ ha', ?_⟩
      rw [show lastTierOf (a :: b :: rest2)
        = (match lastTierOf (b :: rest2) with
           | some t => some t
           | none => some a.2) from rfl, heq]

theorem firstRule_mem_rules :
    ∀ (rules : List ((Str → Bool) × Str × Str)) (mid : Str) (fam tier : Str),
      firstRule rules mid = some (fam, tier) → ∃ p, (p, fam, tier) ∈ rules := by
  intro rules
  induction rules with
  | nil => intro mid fam tier h; simp [firstRule] at h
  | cons r rest ih =>
    intro mid fam tier h
    simp only [firstRule] at h
    by_cases hp : r.1 mid = true
    · rw [if_pos hp] at h
      have := Option.some.inj h
      exact ⟨r.1, by rw [show ((fam, tier) : Str × Str) = r.2 from this.symm]
                     exact List.mem_cons_self _ _⟩
    · rw [if_neg hp] at h
      rcases ih mid fam tier h with ⟨p, hpmem⟩
      exact ⟨p, List.mem_cons_of_mem _ hpmem⟩

set_option synthInstance.maxHeartbeats 1000000 in
theorem tiersConsistent :
    ∀ e ∈ MODEL_FAMILY_PATTERNS, ∀ e2 ∈ MODEL_FAMILY_PATTERNS,
      e.2.1 = e2.2.1 → e.2.2 = e2.2.2 := by
  decide

theorem firstRule_tier_unique {mid mid' f t1 t2 : Str}
    (h1 : firstRule MODEL_FAMILY_PATTERNS mid = some (f, t1))
    (h2 : firstRule MODEL_FAMILY_PATTERNS mid' = some (f, t2)) : t1 = t2 := by
  rcases firstRule_mem_rules _ _ _ _ h1 with ⟨p1, hp1⟩
  rcases firstRule_mem_rules _ _ _ _ h2 with ⟨p2, hp2⟩
  exact tiersConsistent (p1, f, t1) hp1 (p2, f, t2) hp2 rfl

theorem infer_unpack {models : List CatalogModel} {f : Str} {info : FamilyInfo}
    (h : alGet (infer_model_families models) f = some info) :
    ∃ m₀ ms₀, List.insertionSort verLe ((assignedOf f models).map Prod.fst)
        = m₀ :: ms₀ ∧
      assignedOf f models ≠ [] ∧
      info = { latest := m₀.1, members := (m₀ :: ms₀).map Prod.fst,
               tier := (alGet (famTiers models) f).getD (str "mid") } := by
  rw [alGet_infer, famGroups_get] at h
  by_cases hass : assignedOf f models = []
  · rw [if_pos hass] at h
    simp at h
  · rw [if_neg hass] at h
    simp only [Option.some_bind] at h
    rcases hs : List.insertionSort verLe ((assignedOf f models).map Prod.fst)
      with _ | ⟨m₀, ms₀⟩
    · exact absurd hs (insertionSort_ne_nil
        (fun hmap => hass (List.map_eq_nil_iff.mp hmap)))
    · rw [show mkInfo (famTiers models) f ((assignedOf f models).map Prod.fst)
          = some (f, { latest := m₀.1, members := (m₀ :: ms₀).map Prod.fst,
                       tier := (alGet (famTiers models) f).getD (str "mid") }) from by
        simp [mkInfo, hs]] at h
      simp only [Option.map_some'] at h
      exact ⟨m₀, ms₀, rfl, hass, (Option.some.inj h).symm⟩

theorem members_exists_assigned {models : List CatalogModel} {f : Str}
    {m₀ : Str × ℚ} {ms₀ : List (Str × ℚ)}
    (hs : List.insertionSort verLe ((assignedOf f models).map Prod.fst)
      = m₀ :: ms₀)
    {mid : Str} (hmid : mid ∈ (m₀ :: ms₀).map Prod.fst) :
    ∃ a ∈ assignedOf f models, a.1.1 = mid := by
  rcases List.mem_map.mp hmid with ⟨pr, hpr, hpr2⟩
  have hperm := List.perm_insertionSort verLe ((assignedOf f models).map Prod.fst)
  rw [hs] at hperm
  rcases List.mem_map.mp (hperm.subset hpr) with ⟨a, ha, ha2⟩
  exact ⟨a, ha, by rw [ha2, hpr2]⟩

theorem sorted_shape {models : List CatalogModel} {f : Str}
    {m₀ : Str × ℚ} {ms₀ : List (Str × ℚ)}
    (hs : List.insertionSort verLe ((assignedOf f models).map Prod.fst)
      = m₀ :: ms₀) :
    ∀ p ∈ m₀ :: ms₀, p.2 = verKey p.1 := by
  intro p hp
  have hperm := List.perm_insertionSort verLe ((assignedOf f models).map Prod.fst)
  rw [hs] at hperm
  rcases List.mem_map.mp (hperm.subset hp) with ⟨a, ha, ha2⟩
  rw [← ha2]
  exact (assignedOf_shape ha).1

/--
Claim C1: for every family in the mapping returned by
`infer_model_families`: `latest` equals the first element of `members`,
`latest` is an element of `members`, and `members` is sorted by
`extract_version`'s numeric key in descending order with ties retaining
the relative order in which the models appeared in the input (the filter
equation expresses the stable-sort condition: within each key class,
`members` lists exactly the assigned input ids in input order).
-/
theorem claim_C1 (models : List CatalogModel) (f : Str) (info : FamilyInfo)
    (h : alGet (infer_model_families models) f = some info) :
    info.members ≠ [] ∧
    info.members.headI = info.latest ∧
    info.latest ∈ info.members ∧
    List.Sorted (fun a b : Str => verKey b ≤ verKey a) info.members ∧
    ∀ v : ℚ, info.members.filter (fun mid => verKey mid == v)
      = (assignedIds f models).filter (fun mid => verKey mid == v) := by
  rcases infer_unpack h with ⟨m₀, ms₀, hs, hass, hinfo⟩
  subst hinfo
  have hshape := sorted_shape hs
  have hlshape : ∀ y ∈ (assignedOf f models).map Prod.fst, y.2 = verKey y.1 := by
    intro y hy
    rcases List.mem_map.mp hy with ⟨a, ha, ha2⟩
    rw [← ha2]
    exact (assignedOf_shape ha).1
  refine ⟨by simp, by simp, ?_, ?_, ?_⟩
  · show m₀.1 ∈ (m₀ :: ms₀).map Prod.fst
    exact List.mem_map.mpr ⟨m₀, List.mem_cons_self _ _, rfl⟩
  · show List.Sorted (fun a b : Str => verKey b ≤ verKey a)
      ((m₀ :: ms₀).map Prod.fst)
    have hsorted : List.Pairwise verLe (m₀ :: ms₀) := by
      have hsi := List.sorted_insertionSort verLe
        ((assignedOf f models).map Prod.fst)
      rw [hs] at hsi
      exact hsi
    have hsw : List.Pairwise (fun a b : Str × ℚ => verKey b.1 ≤ verKey a.1)
        (m₀ :: ms₀) := by
      refine (List.Pairwise.iff_of_mem ?_).mp hsorted
      intro a b ha hb
      constructor
      · intro hv
        rw [← hshape a ha, ← hshape b hb]
        exact hv
      · intro hv
        show b.2 ≤ a.2
        rw [hshape a ha, hshape b hb]
        exact hv
    exact List.pairwise_map.mpr hsw
  · intro v
    show ((m₀ :: ms₀).map Prod.fst).filter (fun mid => verKey mid == v)
      = (assignedIds f models).filter (fun mid => verKey mid == v)
    have hids : assignedIds f models
        = ((assignedOf f models).map Prod.fst).map Prod.fst := by
      rw [assignedIds, List.map_map]
      rfl
    rw [hids, List.filter_map, List.filter_map]
    congr 1
    have h1 : (m₀ :: ms₀).filter ((fun mid => verKey mid == v) ∘ Prod.fst)
        = (m₀ :: ms₀).filter (fun y => y.2 == v) := by
      apply List.filter_congr
      intro y hy
      show (verKey y.1 == v) = (y.2 == v)
      rw [hshape y hy]
    have h2 : ((assignedOf f models).map Prod.fst).filter
          ((fun mid => verKey mid == v) ∘ Prod.fst)
        = ((assignedOf f models).map Prod.fst).filter (fun y => y.2 == v) := by
      apply List.filter_congr
      intro y hy
      show (verKey y.1 == v) = (y.2 == v)
      rw [hlshape y hy]
    rw [h1, h2, ← hs, filter_insertionSort]

theorem infer_isSome_of_assigned {models : List CatalogModel} {f : Str}
    (hass : assignedOf f models ≠ []) :
    ∃ info, alGet (infer_model_families models) f = some info := by
  rw [alGet_infer, famGroups_get, if_neg hass]
  simp only [Option.some_bind]
  rcases hs : List.insertionSort verLe ((assignedOf f models).map Prod.fst)
    with _ | ⟨m₀, ms₀⟩
  · exact absurd hs (insertionSort_ne_nil
      (fun hmap => hass (List.map_eq_nil_iff.mp hmap)))
  · exact ⟨{ latest := m₀.1, members := (m₀ :: ms₀).map Prod.fst,
             tier := (alGet (famTiers models) f).getD (str "mid") },
      by simp [mkInfo, hs]⟩

theorem mergeModels_ids (models : List CatalogModel) (idx : ScoreIndex) :
    (mergeModels models idx).map MergedModel.id = models.map CatalogModel.id := by
  rw [mergeModels, List.map_map]
  apply List.map_congr_left
  intro model _
  rcases hm : match_model model.id idx with _ | scores
  · simp [Function.comp, hm]
  · by_cases hemp : scores.isEmpty <;> simp [Function.comp, hm, hemp]

/--
Claim C4: in `infer_model_families` the family rules are tried in
declaration order and the first rule whose pattern matches the raw
identifier assigns the model to that rule's family and tier (membership in
a family's members is exactly first-match assignment to it); no model is
assigned to more than one family; a model matching no rule is placed in no
family, yet such a model still appears as an entry in the merged models
output of the run.
-/
theorem claim_C4 (models : List CatalogModel) (idx : ScoreIndex) :
    (∀ f info, alGet (infer_model_families models) f = some info →
      ∀ mid ∈ info.members,
        firstRule MODEL_FAMILY_PATTERNS mid = some (f, info.tier)) ∧
    (∀ f info f' info', alGet (infer_model_families models) f = some info →
      alGet (infer_model_families models) f' = some info' →
      ∀ mid, mid ∈ info.members → mid ∈ info'.members → f = f') ∧
    (∀ model ∈ models, ∀ f tier,
      firstRule MODEL_FAMILY_PATTERNS model.id = some (f, tier) →
      ∃ info, alGet (infer_model_families models) f = some info ∧
        model.id ∈ info.members) ∧
    (∀ model ∈ models, firstRule MODEL_FAMILY_PATTERNS model.id = none →
      (∀ f info, alGet (infer_model_families models) f = some info →
        model.id ∉ info.members) ∧
      model.id ∈ (mergeModels models idx).map MergedModel.id) := by
  have main : ∀ f info, alGet (infer_model_families models) f = some info →
      ∀ mid ∈ info.members,
        firstRule MODEL_FAMILY_PATTERNS mid = some (f, info.tier) := by
    intro f info h mid hmid
    rcases infer_unpack h with ⟨m₀, ms₀, hs, hass, hinfo⟩
    have hmem : mid ∈ (m₀ :: ms₀).map Prod.fst := by
      rw [hinfo] at hmid
      exact hmid
    rcases members_exists_assigned hs hmem with ⟨a, ha, haid⟩
    have hfr := (assignedOf_shape ha).2
    rcases lastTierOf_spec hass with ⟨a₀, ha₀, htier⟩
    have hfr₀ := (assignedOf_shape ha₀).2
    have htiereq : a.2 = a₀.2 := firstRule_tier_unique hfr hfr₀
    have hinfotier : info.tier = a₀.2 := by
      rw [hinfo]
      show (alGet (famTiers models) f).getD (str "mid") = a₀.2
      rw [famTiers_get, htier]
      rfl
    rw [← haid, hinfotier, ← htiereq]
    exact hfr
  refine ⟨main, ?_, ?_, ?_⟩
  · intro f info f' info' h h' mid hm hm'
    have h1 := main f info h mid hm
    have h2 := main f' info' h' mid hm'
    exact congrArg Prod.fst (Option.some.inj (h1.symm.trans h2))
  · intro model hmodel f tier hfr
    have hassigned : ((model.id, (extract_version model.id).1), tier)
        ∈ assignedOf f models := by
      apply List.mem_filterMap.mpr
      exact ⟨model, hmodel, by simp [hfr]⟩
    have hass : assignedOf f models ≠ [] := by
      intro h0
      rw [h0] at hassigned
      exact absurd hassigned (List.not_mem_nil _)
    rcases infer_isSome_of_assigned hass with ⟨info, hg⟩
    refine ⟨info, hg, ?_⟩
    rcases infer_unpack hg with ⟨m₀, ms₀, hs, _, hinfo⟩
    rw [hinfo]
    show model.id ∈ (m₀ :: ms₀).map Prod.fst
    have hperm := List.perm_insertionSort verLe
      ((assignedOf f models).map Prod.fst)
    rw [hs] at hperm
    have hpair : (model.id, (extract_version model.id).1)
        ∈ (assignedOf f models).map Prod.fst :=
      List.mem_map.mpr ⟨_, hassigned, rfl⟩
    exact List.mem_map.mpr ⟨_, hperm.mem_iff.mpr hpair, rfl⟩
  · intro model hmodel hnone
    constructor
    · intro f info h hmid
      have := main f info h model.id hmid
      rw [hnone] at this
      exact Option.noConfusion this
    · rw [mergeModels_ids]
      exact List.mem_map.mpr ⟨model, hmodel, rfl⟩

/-- Witness for C1 at `demoModels`: the `claude-sonnet` family sorts its
two members descending by version (4.5 before 3.5, reversing input
order), `latest` is the head, and the key-class filters agree with input
order. -/
theorem claim_C1_witness :
    alGet (infer_model_families demoModels) (str "claude-sonnet")
      = some { latest := str "anthropic/claude-sonnet-4.5",
               members := [str "anthropic/claude-sonnet-4.5",
                           str "anthropic/claude-3.5-sonnet"],
               tier := str "mid" } ∧
    ({ latest := str "anthropic/claude-sonnet-4.5",
       members := [str "anthropic/claude-sonnet-4.5",
                   str "anthropic/claude-3.5-sonnet"],
       tier := str "mid" } : FamilyInfo).latest
      ∈ ({ latest := str "anthropic/claude-sonnet-4.5",
           members := [str "anthropic/claude-sonnet-4.5",
                       str "anthropic/claude-3.5-sonnet"],
           tier := str "mid" } : FamilyInfo).members ∧
    ({ latest := str "anthropic/claude-sonnet-4.5",
       members := [str "anthropic/claude-sonnet-4.5",
                   str "anthropic/claude-3.5-sonnet"],
       tier := str "mid" } : FamilyInfo).members.filter
        (fun mid => verKey mid == mkRat 9 2)
      = (assignedIds (str "claude-sonnet") demoModels).filter
          (fun mid => verKey mid == mkRat 9 2) :=
  ⟨by decide,
   (claim_C1 demoModels (str "claude-sonnet")
     { latest := str "anthropic/claude-sonnet-4.5",
       members := [str "anthropic/claude-sonnet-4.5",
                   str "anthropic/claude-3.5-sonnet"],
       tier := str "mid" } (by decide)).2.2.1,
   (claim_C1 demoModels (str "claude-sonnet")
     { latest := str "anthropic/claude-sonnet-4.5",
       members := [str "anthropic/claude-sonnet-4.5",
                   str "anthropic/claude-3.5-sonnet"],
       tier := str "mid" } (by decide)).2.2.2.2 (mkRat 9 2)⟩

/-- Witness for C4 at `demoModels`: the matched model lands in exactly the
family of its first matching rule, and the unmatched `foo/bar` still
appears in the merged output. -/
theorem claim_C4_witness :
    firstRule MODEL_FAMILY_PATTERNS (str "anthropic/claude-sonnet-4.5")
      = some (str "claude-sonnet", str "mid") ∧
    (∃ info, alGet (infer_model_families demoModels) (str "claude-sonnet")
        = some info ∧ str "anthropic/claude-sonnet-4.5" ∈ info.members) ∧
    firstRule MODEL_FAMILY_PATTERNS (str "foo/bar") = none ∧
    str "foo/bar" ∈ (mergeModels demoModels []).map MergedModel.id :=
  ⟨by decide,
   (claim_C4 demoModels []).2.2.1
     { id := str "anthropic/claude-sonnet-4.5", name := str "Claude Sonnet 4.5",
       context_length := some 1000000 }
     (by decide) (str "claude-sonnet") (str "mid") (by decide),
   by decide,
   ((claim_C4 demoModels []).2.2.2
     { id := str "foo/bar", name := str "Bar", context_length := none }
     (by decide) (by decide)).2⟩
